import Mathlib

/-!
Verification of the metagraph BOSS-construction pipeline and the Bloom
annotator, as a shallow embedding of the C++ sources.

A k-mer of the BOSS table (`kmer.hpp`, used by `boss_chunk.cpp` and
`dbg_construct.cpp`) is a packed word holding `k + 1` characters.  We model
it as the list of its characters in *position* order: position `0` (the
outgoing edge label, stored in the least significant digit of the packed
word) first, position `k` (the last node character, most significant digit)
last.  The packed-integer comparison of the C++ code is therefore the
lexicographic comparison of the *reversed* lists.
-/

namespace Metagraph

/-- A BOSS (k+1)-mer: the list of its characters, position 0 (edge label)
first, position `k` (last character of the source node) last. -/
abbrev Kmer := List ℕ

/-- Lexicographic strict comparison of digit lists, most significant digit
first.  This is the integer comparison of the packed k-mer words once the
lists are reversed. -/
def lexLt : List ℕ → List ℕ → Bool
  | [], [] => false
  | [], _ :: _ => true
  | _ :: _, [] => false
  | a :: as, b :: bs => a < b || (a == b && lexLt as bs)

/-- The packed-integer strict order on k-mers (`operator<` of `KMer`):
lexicographic on the reversed character lists. -/
def kmerLtB (x y : Kmer) : Bool := lexLt x.reverse y.reverse

/-- The packed-integer (non-strict) order on k-mers, as used by sorting. -/
def kmerLeB (x y : Kmer) : Bool := !(kmerLtB y x)

/-- Propositional form of `kmerLtB`. -/
def kLt (x y : Kmer) : Prop := kmerLtB x y = true

instance : DecidablePred fun p : Kmer × Kmer => kLt p.1 p.2 := by
  intro p; unfold kLt; infer_instance

instance (x y : Kmer) : Decidable (kLt x y) := by
  unfold kLt; infer_instance

/-- `KMer::compare_suffix(x, y, minus)`: the characters at positions
`minus + 1 .. k` coincide (the packed words agree after shifting away the
`minus + 1` least significant digits). -/
def compare_suffix (x y : Kmer) (minus : ℕ) : Bool :=
  x.drop (minus + 1) == y.drop (minus + 1)

/-- `kmerLeB x y` holds exactly when `y` is not strictly below `x`. -/
theorem kmerLeB_iff {x y : Kmer} : kmerLeB x y = true ↔ ¬ kLt y x := by
  simp [kmerLeB, kLt, Bool.not_eq_true']

/-- `KMer::to_prev(k + 1, c)` with `c` the sentinel code 0: the predecessor
edge.  Its edge label (position 0) is the old position-`k` character, its
position 1 is the new sentinel, and positions `2 .. k` are the old
positions `1 .. k-1`. -/
def to_prev (k : ℕ) (x : Kmer) : Kmer :=
  x.getD k 0 :: 0 :: (x.drop 1).take (k - 1)

theorem lexLt_irrefl (a : List ℕ) : lexLt a a = false := by
  induction a with
  | nil => rfl
  | cons x xs ih => simp [lexLt, ih]

theorem lexLt_asymm {a b : List ℕ} (h : lexLt a b = true) : lexLt b a = false := by
  induction a generalizing b with
  | nil =>
    cases b with
    | nil => simp [lexLt] at h
    | cons y ys => rfl
  | cons x xs ih =>
    cases b with
    | nil => simp [lexLt] at h
    | cons y ys =>
      simp only [lexLt, Bool.or_eq_true, Bool.and_eq_true, decide_eq_true_eq,
        beq_iff_eq] at h
      simp only [lexLt, Bool.or_eq_false_iff, Bool.and_eq_false_iff,
        decide_eq_false_iff_not, beq_eq_false_iff_ne, ne_eq]
      rcases h with h | ⟨rfl, h⟩
      · exact ⟨by omega, Or.inl (by omega)⟩
      · exact ⟨by omega, Or.inr (ih h)⟩

theorem lexLt_trans {a b c : List ℕ} (h₁ : lexLt a b = true)
    (h₂ : lexLt b c = true) : lexLt a c = true := by
  induction a generalizing b c with
  | nil =>
    cases b with
    | nil => simp [lexLt] at h₁
    | cons y ys =>
      cases c with
      | nil => simp [lexLt] at h₂
      | cons z zs => rfl
  | cons x xs ih =>
    cases b with
    | nil => simp [lexLt] at h₁
    | cons y ys =>
      cases c with
      | nil => simp [lexLt] at h₂
      | cons z zs =>
        simp only [lexLt, Bool.or_eq_true, Bool.and_eq_true, decide_eq_true_eq,
          beq_iff_eq] at h₁ h₂ ⊢
        rcases h₁ with h₁ | ⟨rfl, h₁⟩
        · rcases h₂ with h₂ | ⟨rfl, h₂⟩
          · exact Or.inl (by omega)
          · exact Or.inl h₁
        · rcases h₂ with h₂ | ⟨rfl, h₂⟩
          · exact Or.inl h₂
          · exact Or.inr ⟨rfl, ih h₁ h₂⟩

theorem lexLt_connex {a b : List ℕ} (h₁ : lexLt a b = false)
    (h₂ : lexLt b a = false) : a = b := by
  induction a generalizing b with
  | nil =>
    cases b with
    | nil => rfl
    | cons y ys => simp [lexLt] at h₁
  | cons x xs ih =>
    cases b with
    | nil => simp [lexLt] at h₂
    | cons y ys =>
      simp only [lexLt, Bool.or_eq_false_iff, Bool.and_eq_false_iff,
        decide_eq_false_iff_not, beq_iff_eq, beq_eq_false_iff_ne, ne_eq] at h₁ h₂
      obtain ⟨hxy, h₁'⟩ := h₁
      obtain ⟨hyx, h₂'⟩ := h₂
      have hxy' : x = y := by omega
      subst hxy'
      rcases h₁' with h | h
      · exact absurd rfl h
      · rcases h₂' with h' | h'
        · exact absurd rfl h'
        · rw [ih h h']

/-- Between two lists that agree on their first `n` digits, every list
lying between them in the lexicographic order also agrees on those
digits. -/
theorem lexLt_take_between {a b c : List ℕ} {n : ℕ}
    (hba : lexLt b a = false) (hcb : lexLt c b = false)
    (h : a.take n = c.take n) : b.take n = a.take n := by
  induction n generalizing a b c with
  | zero => simp
  | succ n ih =>
    cases a with
    | nil =>
      have hc : c = [] := by
        have := h.symm
        rw [List.take_nil] at this
        rcases List.take_eq_nil_iff.mp this with h' | h'
        · omega
        · exact h'
      subst hc
      cases b with
      | nil => simp
      | cons y ys => simp [lexLt] at hcb
    | cons x xs =>
      cases c with
      | nil => simp at h
      | cons z zs =>
        cases b with
        | nil => simp [lexLt] at hba
        | cons y ys =>
          simp only [List.take_succ_cons, List.cons.injEq] at h
          obtain ⟨rfl, htail⟩ := h
          simp only [lexLt, Bool.or_eq_false_iff, Bool.and_eq_false_iff,
            decide_eq_false_iff_not, beq_iff_eq, beq_eq_false_iff_ne, ne_eq] at hba hcb
          obtain ⟨hyx, h₁'⟩ := hba
          obtain ⟨hxy, h₂'⟩ := hcb
          have hxy' : y = x := by omega
          subst hxy'
          simp only [List.take_succ_cons, List.cons.injEq, true_and]
          rcases h₁' with h | h
          · exact absurd rfl h
          · rcases h₂' with h' | h'
            · exact absurd rfl h'
            · exact ih h h' htail

theorem kLt_irrefl (x : Kmer) : ¬ kLt x x := by
  simp [kLt, kmerLtB, lexLt_irrefl]

theorem kLt_asymm {x y : Kmer} (h : kLt x y) : ¬ kLt y x := by
  simp only [kLt, kmerLtB] at *
  simp [lexLt_asymm h]

theorem kLt_trans {x y z : Kmer} (h₁ : kLt x y) (h₂ : kLt y z) : kLt x z :=
  lexLt_trans h₁ h₂

theorem kLt_connex {x y : Kmer} (h₁ : ¬ kLt x y) (h₂ : ¬ kLt y x) : x = y := by
  simp only [kLt, kmerLtB, Bool.not_eq_true] at h₁ h₂
  exact List.reverse_injective (lexLt_connex h₁ h₂ : x.reverse = y.reverse)

theorem kLt_trichot (x y : Kmer) : kLt x y ∨ x = y ∨ kLt y x := by
  by_cases h₁ : kLt x y
  · exact Or.inl h₁
  · by_cases h₂ : kLt y x
    · exact Or.inr (Or.inr h₂)
    · exact Or.inr (Or.inl (kLt_connex h₁ h₂))

theorem kLt_ne {x y : Kmer} (h : kLt x y) : x ≠ y := by
  rintro rfl; exact kLt_irrefl x h

/-- Transfer of `compare_suffix` to prefixes of the reversed (sort-key)
lists: for (k+1)-character kmers, equality of positions `m + 1 .. k` is
equality of the first `k - m` digits of the sort keys. -/
theorem compare_suffix_iff_take {x y : Kmer} {k m : ℕ} (hm : m ≤ k)
    (hx : x.length = k + 1) (hy : y.length = k + 1) :
    compare_suffix x y m = true ↔
      x.reverse.take (k - m) = y.reverse.take (k - m) := by
  simp only [compare_suffix, beq_iff_eq]
  constructor
  · intro h
    have := congrArg List.reverse h
    rw [List.reverse_drop, List.reverse_drop, hx, hy] at this
    simpa [Nat.succ_sub_succ] using this
  · intro h
    have h2 := congrArg List.reverse h
    rw [List.reverse_take, List.reverse_take, List.reverse_reverse,
      List.reverse_reverse, List.length_reverse, List.length_reverse,
      hx, hy] at h2
    have he : k + 1 - (k - m) = m + 1 := by omega
    rwa [he] at h2

/-- Between-kmers version of `lexLt_take_between` for `compare_suffix`. -/
theorem compare_suffix_between {x p q : Kmer} {k m : ℕ} (hm : m ≤ k)
    (hx : x.length = k + 1) (hp : p.length = k + 1) (hq : q.length = k + 1)
    (hqp : ¬ kLt p q) (hpx : ¬ kLt x p)
    (h : compare_suffix x q m = true) : compare_suffix x p m = true := by
  rw [compare_suffix_iff_take hm hx hq] at h
  rw [compare_suffix_iff_take hm hx hp]
  simp only [kLt, kmerLtB, Bool.not_eq_true] at hqp hpx
  have hb := lexLt_take_between hqp hpx h.symm
  rw [hb]
  exact h

/-- For kmers of length `k + 1`, the last node character (position `k`) is
the most significant sort digit, hence monotone along the order. -/
theorem charK_mono {x y : Kmer} {k : ℕ} (hx : x.length = k + 1)
    (hy : y.length = k + 1) (h : ¬ kLt y x) : x.getD k 0 ≤ y.getD k 0 := by
  simp only [kLt, kmerLtB, Bool.not_eq_true] at h
  have hx' : x.reverse.length = k + 1 := by simpa using hx
  have hy' : y.reverse.length = k + 1 := by simpa using hy
  have hgx : x.getD k 0 = x.reverse.headD 0 := by
    cases hxr : x.reverse with
    | nil => simp [hxr] at hx'
    | cons a t =>
      have : x = (a :: t).reverse := by
        rw [← hxr, List.reverse_reverse]
      subst this
      have hlen : t.reverse.length = k := by
        simpa using hx
      simp [List.getD_eq_getElem?_getD, List.getElem?_append, hlen]
  have hgy : y.getD k 0 = y.reverse.headD 0 := by
    cases hyr : y.reverse with
    | nil => simp [hyr] at hy'
    | cons a t =>
      have : y = (a :: t).reverse := by
        rw [← hyr, List.reverse_reverse]
      subst this
      have hlen : t.reverse.length = k := by
        simpa using hy
      simp [List.getD_eq_getElem?_getD, List.getElem?_append, hlen]
  rw [hgx, hgy]
  cases hxr : x.reverse with
  | nil => simp [hxr] at hx'
  | cons a t =>
    cases hyr : y.reverse with
    | nil => simp [hyr] at hy'
    | cons b s =>
      rw [hxr, hyr] at h
      simp only [lexLt, Bool.or_eq_false_iff, Bool.and_eq_false_iff,
        decide_eq_false_iff_not, beq_eq_false_iff_ne, ne_eq] at h
      simp only [List.headD_cons]
      omega

/-! ### Sorting and adjacent deduplication

`sort_and_remove_duplicates` (dbg_construct.cpp / boss_chunk_construct.cpp)
sorts a range with the packed-kmer order and then calls `std::unique`,
which drops every element equal to its immediate predecessor. -/

/-- Insert into a sorted list, keeping the packed-kmer order. -/
def insSorted (x : Kmer) : List Kmer → List Kmer
  | [] => [x]
  | y :: r => if kmerLeB x y then x :: y :: r else y :: insSorted x r

/-- The sort used throughout the pipeline, keyed by the packed-kmer order.
The C++ code calls `ips4o::parallel::sort`; since the sorted arrangement of
a multiset of plain values is unique, any comparison sort denotes the same
function, and we model it by insertion sort. -/
def kmSort : List Kmer → List Kmer
  | [] => []
  | x :: r => insSorted x (kmSort r)

/-- `std::unique`: drop every element equal to the last kept one. -/
def uniqueGo (prev : Kmer) : List Kmer → List Kmer
  | [] => []
  | y :: r => if prev == y then uniqueGo prev r else y :: uniqueGo y r

/-- `std::unique` over a whole list (the first element is always kept). -/
def uniqueAdj : List Kmer → List Kmer
  | [] => []
  | x :: r => x :: uniqueGo x r

/-- `sort_and_remove_duplicates` applied to a whole list. -/
def sortDedup (l : List Kmer) : List Kmer := uniqueAdj (kmSort l)

theorem kmerLeB_trans (a b c : Kmer) (h₁ : kmerLeB a b = true)
    (h₂ : kmerLeB b c = true) : kmerLeB a c = true := by
  rw [kmerLeB_iff] at *
  intro hca
  rcases kLt_trichot a b with hab | rfl | hab
  · rcases kLt_trichot b c with hbc | rfl | hbc
    · exact kLt_irrefl a (kLt_trans (kLt_trans hab hbc) hca)
    · exact kLt_irrefl a (kLt_trans hab hca)
    · exact h₂ hbc
  · exact h₂ hca
  · exact h₁ hab

theorem kmerLeB_total (a b : Kmer) : (kmerLeB a b || kmerLeB b a) = true := by
  simp only [Bool.or_eq_true, kmerLeB_iff]
  by_cases h : kLt b a
  · exact Or.inr (kLt_asymm h)
  · exact Or.inl h

theorem insSorted_perm (x : Kmer) (l : List Kmer) :
    (insSorted x l).Perm (x :: l) := by
  induction l with
  | nil => rfl
  | cons y r ih =>
    rw [insSorted]
    by_cases h : kmerLeB x y = true
    · rw [if_pos h]
    · rw [if_neg h]
      exact (ih.cons y).trans (List.Perm.swap x y r)

theorem kmSort_perm (l : List Kmer) : (kmSort l).Perm l := by
  induction l with
  | nil => rfl
  | cons x r ih =>
    rw [kmSort]
    exact (insSorted_perm x (kmSort r)).trans (ih.cons x)

theorem pairwise_le_insSorted {x : Kmer} {l : List Kmer}
    (h : List.Pairwise (fun a b => kmerLeB a b = true) l) :
    List.Pairwise (fun a b => kmerLeB a b = true) (insSorted x l) := by
  induction l with
  | nil => simp [insSorted]
  | cons y r ih =>
    rw [insSorted]
    rw [List.pairwise_cons] at h
    by_cases hxy : kmerLeB x y = true
    · rw [if_pos hxy]
      rw [List.pairwise_cons]
      refine ⟨?_, List.pairwise_cons.mpr h⟩
      intro z hz
      rcases List.mem_cons.mp hz with rfl | hz'
      · exact hxy
      · exact kmerLeB_trans x y z hxy (h.1 z hz')
    · rw [if_neg hxy]
      rw [List.pairwise_cons]
      refine ⟨?_, ih h.2⟩
      intro z hz
      have hz2 := (insSorted_perm x r).mem_iff.mp hz
      rcases List.mem_cons.mp hz2 with rfl | hz'
      · have hyx : kLt y z := by
          by_contra hc
          exact hxy (kmerLeB_iff.mpr hc)
        exact kmerLeB_iff.mpr (kLt_asymm hyx)
      · exact h.1 z hz'

theorem pairwise_le_kmSort (l : List Kmer) :
    List.Pairwise (fun a b => kmerLeB a b = true) (kmSort l) := by
  induction l with
  | nil => simp [kmSort]
  | cons x r ih =>
    rw [kmSort]
    exact pairwise_le_insSorted ih

theorem mem_kmSort {l : List Kmer} {x : Kmer} : x ∈ kmSort l ↔ x ∈ l :=
  (kmSort_perm l).mem_iff

theorem mem_uniqueGo {p : Kmer} {l : List Kmer} {x : Kmer} (hx : x ∈ uniqueGo p l) :
    x ∈ l := by
  induction l generalizing p with
  | nil => simpa [uniqueGo] using hx
  | cons y r ih =>
    rw [uniqueGo] at hx
    by_cases h : (p == y) = true
    · rw [if_pos h] at hx
      exact List.mem_cons.mpr (Or.inr (ih hx))
    · rw [if_neg h] at hx
      rcases List.mem_cons.mp hx with rfl | hx'
      · simp
      · exact List.mem_cons.mpr (Or.inr (ih hx'))

theorem mem_uniqueGo_of_ne {p : Kmer} {l : List Kmer} {x : Kmer}
    (hx : x ∈ l) (hne : x ≠ p) : x ∈ uniqueGo p l := by
  induction l generalizing p with
  | nil => simp at hx
  | cons y r ih =>
    rw [uniqueGo]
    by_cases h : (p == y) = true
    · rw [if_pos h]
      rw [beq_iff_eq] at h
      rcases List.mem_cons.mp hx with rfl | hx'
      · exact absurd h.symm hne
      · exact ih hx' hne
    · rw [if_neg h]
      rcases List.mem_cons.mp hx with rfl | hx'
      · simp
      · by_cases hxy : x = y
        · subst hxy
          simp
        · exact List.mem_cons.mpr (Or.inr (ih hx' hxy))

theorem mem_uniqueAdj {l : List Kmer} {x : Kmer} : x ∈ uniqueAdj l ↔ x ∈ l := by
  cases l with
  | nil => simp [uniqueAdj]
  | cons a r =>
    rw [uniqueAdj]
    constructor
    · intro hx
      rcases List.mem_cons.mp hx with rfl | hx'
      · simp
      · exact List.mem_cons.mpr (Or.inr (mem_uniqueGo hx'))
    · intro hx
      rcases List.mem_cons.mp hx with rfl | hx'
      · simp
      · by_cases hxa : x = a
        · subst hxa
          simp
        · exact List.mem_cons.mpr (Or.inr (mem_uniqueGo_of_ne hx' hxa))

theorem kLt_of_le_ne {a b : Kmer} (h : kmerLeB a b = true) (hne : a ≠ b) :
    kLt a b := by
  by_contra hlt
  simp only [kmerLeB, Bool.not_eq_true'] at h
  exact hne (kLt_connex hlt (by simp [kLt, h]))

theorem pairwise_lt_uniqueGo {p : Kmer} {l : List Kmer}
    (h : List.Pairwise (fun a b => kmerLeB a b = true) l)
    (hp : ∀ z ∈ l, kmerLeB p z = true) :
    (∀ z ∈ uniqueGo p l, kLt p z) ∧ List.Pairwise kLt (uniqueGo p l) := by
  induction l generalizing p with
  | nil => simp [uniqueGo]
  | cons y r ih =>
    rw [List.pairwise_cons] at h
    rw [uniqueGo]
    by_cases hpy : (p == y) = true
    · rw [if_pos hpy]
      rw [beq_iff_eq] at hpy
      subst hpy
      exact ih h.2 h.1
    · rw [if_neg hpy]
      have hpy' : p ≠ y := by
        intro hh
        rw [hh] at hpy
        simp at hpy
      have hpyl : kLt p y := kLt_of_le_ne (hp y (by simp)) hpy'
      obtain ⟨ihA, ihB⟩ := ih h.2 h.1
      constructor
      · intro z hz
        rcases List.mem_cons.mp hz with rfl | hz'
        · exact hpyl
        · exact kLt_trans hpyl (ihA z hz')
      · rw [List.pairwise_cons]
        exact ⟨ihA, ihB⟩

theorem pairwise_lt_uniqueAdj {l : List Kmer}
    (h : List.Pairwise (fun a b => kmerLeB a b = true) l) :
    List.Pairwise kLt (uniqueAdj l) := by
  cases l with
  | nil => simp [uniqueAdj]
  | cons a r =>
    rw [uniqueAdj, List.pairwise_cons]
    rw [List.pairwise_cons] at h
    obtain ⟨hA, hB⟩ := pairwise_lt_uniqueGo h.2 h.1
    exact ⟨hA, hB⟩

theorem pairwise_lt_sortDedup (l : List Kmer) :
    List.Pairwise kLt (sortDedup l) :=
  pairwise_lt_uniqueAdj (pairwise_le_kmSort l)

theorem mem_sortDedup {l : List Kmer} {x : Kmer} : x ∈ sortDedup l ↔ x ∈ l := by
  rw [sortDedup, mem_uniqueAdj, mem_kmSort]

/-- Two strictly sorted lists with the same members are equal: the result
of sort + unique is canonical in the set of elements. -/
theorem eq_of_pairwise_lt_mem {l₁ l₂ : List Kmer}
    (h₁ : List.Pairwise kLt l₁) (h₂ : List.Pairwise kLt l₂)
    (hm : ∀ x, x ∈ l₁ ↔ x ∈ l₂) : l₁ = l₂ := by
  induction l₁ generalizing l₂ with
  | nil =>
    cases l₂ with
    | nil => rfl
    | cons b t => exact absurd ((hm b).mpr (by simp)) (by simp)
  | cons a t ih =>
    cases l₂ with
    | nil => exact absurd ((hm a).mp (by simp)) (by simp)
    | cons b s =>
      rw [List.pairwise_cons] at h₁ h₂
      have hab : a = b := by
        rcases List.mem_cons.mp ((hm a).mp (by simp)) with h | h
        · exact h
        · rcases List.mem_cons.mp ((hm b).mpr (by simp)) with h' | h'
          · exact h'.symm
          · exact absurd (h₂.1 a h) (kLt_asymm (h₁.1 b h'))
      subst hab
      have hts : t = s := by
        apply ih h₁.2 h₂.2
        intro x
        constructor
        · intro hx
          rcases List.mem_cons.mp ((hm x).mp (by simp [hx])) with rfl | h
          · exact absurd (h₁.1 x hx) (kLt_irrefl x)
          · exact h
        · intro hx
          rcases List.mem_cons.mp ((hm x).mpr (by simp [hx])) with rfl | h
          · exact absurd (h₂.1 x hx) (kLt_irrefl x)
          · exact h
      rw [hts]

/-- `sortDedup` depends only on the set of elements. -/
theorem sortDedup_eq_of_mem_iff {l₁ l₂ : List Kmer}
    (h : ∀ x, x ∈ l₁ ↔ x ∈ l₂) : sortDedup l₁ = sortDedup l₂ :=
  eq_of_pairwise_lt_mem (pairwise_lt_sortDedup l₁) (pairwise_lt_sortDedup l₂)
    (by intro x; rw [mem_sortDedup, mem_sortDedup]; exact h x)

/-! ### The BOSS chunk builder

`initialize_chunk` (boss_chunk.cpp, lines 28-121; the same loop appears as
`chunk_from_kmers` in dbg_construct.cpp).  The input is the sorted list of
distinct (k+1)-mers, optionally with counts (`std::pair<KMER, COUNT>`); we
embed the pair instantiation, the plain one being the special case of zero
counts.  `maxC` is `utils::max_uint(weights->width())`. -/

/-- State of the linear construction pass.  `W`, `last`, `weights` grow by
one entry per emitted kmer; position 0 holds the reserved head entries.
`ems` additionally records which kmer each emitted position came from (a
ghost field: it does not influence `W`, `last`, `F` or `weights`). -/
structure ChunkSt where
  W : List ℕ
  last : List Bool
  wts : List ℕ
  ems : List Kmer
  lastF : ℕ
  F : List ℕ

/-- The backward scan of `initialize_chunk` that sets the duplicate flag:
walk the previously processed kmers (most recent first) while they agree
with `x` on positions `2 .. k`; if one of them carries the same (nonzero)
edge label, return `curW + alph_size`. -/
def scanW (alph : ℕ) (x : Kmer) (curW : ℕ) : List Kmer → ℕ
  | [] => curW
  | p :: ps =>
    if compare_suffix x p 1 then
      if 0 < curW ∧ p.getD 0 0 = curW then curW + alph
      else scanW alph x curW ps
    else curW

/-- Body of `while (curF > lastF && lastF + 1 < alph_size)
F[++lastF] = curpos - 1`, recursing on the remaining distance
`d = curF - lastF` (the loop decreases it by one per iteration). -/
def advGo (alph curpos : ℕ) : ℕ → ℕ → List ℕ → ℕ × List ℕ
  | 0, lastF, F => (lastF, F)
  | d + 1, lastF, F =>
    if lastF + 1 < alph then
      advGo alph curpos d (lastF + 1) (F.set (lastF + 1) (curpos - 1))
    else (lastF, F)

/-- `while (curF > lastF && lastF + 1 < alph_size) F[++lastF] = curpos - 1`. -/
def advanceF (alph curpos curF : ℕ) (lastF : ℕ) (F : List ℕ) : ℕ × List ℕ :=
  advGo alph curpos (curF - lastF) lastF F

/-- Body of `while (++lastF < alph_size) F[lastF] = curpos - 1`, recursing
on the number of remaining iterations `alph - lastF - 1`. -/
def fillGo (curpos : ℕ) : ℕ → ℕ → List ℕ → List ℕ
  | 0, _, F => F
  | d + 1, lastF, F => fillGo curpos d (lastF + 1) (F.set (lastF + 1) (curpos - 1))

/-- `while (++lastF < alph_size) F[lastF] = curpos - 1`. -/
def fillF (alph curpos : ℕ) (lastF : ℕ) (F : List ℕ) : List ℕ :=
  fillGo curpos (alph - lastF - 1) lastF F

/-- Does the next array element share the full node (positions `1 .. k`)? -/
def nextSameB (x : Kmer) : List (Kmer × ℕ) → Bool
  | [] => false
  | (nx, _) :: _ => compare_suffix x nx 0

/-- The main loop of `initialize_chunk`.  `prevRev` is the list of already
processed kmers, most recent first (the backward scan also visits kmers
that were skipped as redundant dummy sink edges, exactly as the C++ code
scans raw array positions). -/
def chunkLoop (alph k maxC : ℕ) :
    List (Kmer × ℕ) → List Kmer → ChunkSt → ChunkSt
  | [], _, st => st
  | (x, cnt) :: rest, prevRev, st =>
    let curW := x.getD 0 0
    let curF := x.getD k 0
    if nextSameB x rest && curW == 0 && decide (0 < curF) then
      chunkLoop alph k maxC rest (x :: prevRev) st
    else
      let w := scanW alph x curW prevRev
      let curpos := st.W.length
      let fa := advanceF alph curpos curF st.lastF st.F
      let wt := if cnt ≠ 0 ∧ curW ≠ 0 ∧ x.getD 1 0 ≠ 0 then min cnt maxC else 0
      chunkLoop alph k maxC rest (x :: prevRev)
        { W := st.W ++ [w], last := st.last ++ [!nextSameB x rest],
          wts := st.wts ++ [wt], ems := st.ems ++ [x],
          lastF := fa.1, F := fa.2 }

/-- `initialize_chunk`: head entries `W[0] = 0`, `last[0] = 0`,
`weights[0] = 0`, `F` zero-initialised, then the linear pass, then the
trailing fill of `F`. -/
def initialize_chunk (alph k maxC : ℕ) (input : List (Kmer × ℕ)) : ChunkSt :=
  let st := chunkLoop alph k maxC input []
    ⟨[0], [false], [0], [], 0, List.replicate alph 0⟩
  { st with F := fillF alph st.W.length st.lastF st.F }

/-- Specification value of a `W` entry: the edge label, plus `alph` when a
previously processed kmer shares positions `2 .. k` and carries the same
nonzero label. -/
def wSpecB (alph : ℕ) (x : Kmer) (before : List Kmer) : ℕ :=
  if 0 < x.getD 0 0 ∧
      (before.any fun p => compare_suffix x p 1 && p.getD 0 0 == x.getD 0 0)
  then x.getD 0 0 + alph else x.getD 0 0

/-- Specification of the emitted entries `(kmer, W, last, weight)` of the
linear pass, with the processed prefix made explicit. -/
def emitSpec (alph k maxC : ℕ) :
    List (Kmer × ℕ) → List Kmer → List (Kmer × ℕ × Bool × ℕ)
  | [], _ => []
  | (x, cnt) :: rest, before =>
    if nextSameB x rest && x.getD 0 0 == 0 && decide (0 < x.getD k 0) then
      emitSpec alph k maxC rest (before ++ [x])
    else
      (x, wSpecB alph x before, !nextSameB x rest,
        if cnt ≠ 0 ∧ x.getD 0 0 ≠ 0 ∧ x.getD 1 0 ≠ 0 then min cnt maxC else 0) ::
        emitSpec alph k maxC rest (before ++ [x])

theorem scanW_zero (alph : ℕ) (x : Kmer) (l : List Kmer) :
    scanW alph x 0 l = 0 := by
  induction l with
  | nil => rfl
  | cons p ps ih =>
    rw [scanW]
    by_cases h : compare_suffix x p 1 = true
    · rw [if_pos h, if_neg (by simp)]
      exact ih
    · rw [if_neg h]

/-- Characterisation of the backward scan on a sorted processed prefix:
it flags exactly when some earlier kmer agrees on positions `2 .. k` and
has the same nonzero edge label. -/
theorem scanW_eq (alph k : ℕ) (x : Kmer) (done : List Kmer)
    (hk : 1 ≤ k)
    (hlen : ∀ y ∈ done ++ [x], y.length = k + 1)
    (hsort : List.Pairwise kLt (done ++ [x])) :
    scanW alph x (x.getD 0 0) done.reverse = wSpecB alph x done := by
  rcases Nat.eq_zero_or_pos (x.getD 0 0) with hc | hc
  · rw [hc, scanW_zero, wSpecB]
    rw [if_neg (by rw [hc]; simp)]
    rw [hc]
  · induction done using List.reverseRecOn with
    | nil =>
      rw [List.reverse_nil, scanW, wSpecB, if_neg (by simp)]
    | append_singleton ds p ih =>
      have hx : x.length = k + 1 := hlen x (by simp)
      have hp : p.length = k + 1 := hlen p (by simp)
      have hds : ∀ y ∈ ds ++ [x], y.length = k + 1 := by
        intro y hy
        apply hlen
        rcases List.mem_append.mp hy with h | h
        · simp [h]
        · simp at h
          simp [h]
      have hsort' : List.Pairwise kLt (ds ++ [x]) := by
        apply hsort.sublist
        rw [List.append_assoc]
        exact List.Sublist.append_left (by simp) ds
      rw [List.reverse_append, List.reverse_singleton, List.singleton_append,
        scanW]
      by_cases hcmp : compare_suffix x p 1 = true
      · rw [if_pos hcmp]
        by_cases hmatch : p.getD 0 0 = x.getD 0 0
        · rw [if_pos ⟨hc, hmatch⟩, wSpecB,
            if_pos ⟨hc, List.any_eq_true.mpr ⟨p, by simp, by
              rw [Bool.and_eq_true, beq_iff_eq]; exact ⟨hcmp, hmatch⟩⟩⟩]
        · rw [if_neg (fun hh => hmatch hh.2)]
          rw [ih hds hsort']
          have hPp : (compare_suffix x p 1 && (p.getD 0 0 == x.getD 0 0))
              = false := by
            rw [hcmp, Bool.true_and, beq_eq_false_iff_ne]
            exact hmatch
          rw [wSpecB, wSpecB, List.any_append]
          simp only [List.any_cons, List.any_nil, hPp, Bool.or_false]
      · rw [if_neg hcmp, wSpecB]
        by_cases hany : ((ds ++ [p]).any fun q =>
            compare_suffix x q 1 && q.getD 0 0 == x.getD 0 0) = true
        · exfalso
          obtain ⟨q, hq, hP⟩ := List.any_eq_true.mp hany
          rw [Bool.and_eq_true, beq_iff_eq] at hP
          obtain ⟨hqcmp, hqlab⟩ := hP
          have hpx : kLt p x := by
            rw [List.pairwise_append] at hsort
            exact hsort.2.2 p (by simp) x (by simp)
          rcases List.mem_append.mp hq with hq | hq
          · have hq' : q.length = k + 1 := hlen q (by simp [hq])
            have hqp : kLt q p := by
              rw [List.pairwise_append] at hsort
              have h1 := hsort.1
              rw [List.pairwise_append] at h1
              exact h1.2.2 q hq p (by simp)
            exact absurd (compare_suffix_between hk hx hp hq'
              (kLt_asymm hqp) (kLt_asymm hpx) hqcmp) (by simp [hcmp])
          · simp only [List.mem_singleton] at hq
            subst hq
            exact absurd hqcmp (by simp [hcmp])
        · rw [if_neg (fun hh => hany hh.2)]

/-- Master lemma for the linear pass: on a sorted input of (k+1)-mers, the
loop extends `W`, `last`, `weights` and the ghost `ems` exactly by the
entries of `emitSpec`. -/
theorem chunkLoop_spec (alph k maxC : ℕ) (todo : List (Kmer × ℕ))
    (before : List Kmer) (st : ChunkSt) (hk : 1 ≤ k)
    (hlen : ∀ y ∈ before ++ todo.map Prod.fst, y.length = k + 1)
    (hsort : List.Pairwise kLt (before ++ todo.map Prod.fst)) :
    (chunkLoop alph k maxC todo before.reverse st).W
        = st.W ++ (emitSpec alph k maxC todo before).map (fun e => e.2.1) ∧
    (chunkLoop alph k maxC todo before.reverse st).last
        = st.last ++ (emitSpec alph k maxC todo before).map (fun e => e.2.2.1) ∧
    (chunkLoop alph k maxC todo before.reverse st).wts
        = st.wts ++ (emitSpec alph k maxC todo before).map (fun e => e.2.2.2) ∧
    (chunkLoop alph k maxC todo before.reverse st).ems
        = st.ems ++ (emitSpec alph k maxC todo before).map (fun e => e.1) := by
  induction todo generalizing before st with
  | nil =>
    simp [chunkLoop, emitSpec]
  | cons hd rest ih =>
    obtain ⟨x, cnt⟩ := hd
    have hrev : x :: before.reverse = (before ++ [x]).reverse := by
      simp
    have happ : (before ++ [x]) ++ rest.map Prod.fst
        = before ++ ((x, cnt) :: rest).map Prod.fst := by
      simp
    have hlen' : ∀ y ∈ (before ++ [x]) ++ rest.map Prod.fst,
        y.length = k + 1 := by
      rw [happ]
      exact hlen
    have hsort' : List.Pairwise kLt ((before ++ [x]) ++ rest.map Prod.fst) := by
      rw [happ]
      exact hsort
    by_cases hskip :
        (nextSameB x rest && x.getD 0 0 == 0 && decide (0 < x.getD k 0)) = true
    · rw [show chunkLoop alph k maxC ((x, cnt) :: rest) before.reverse st
          = chunkLoop alph k maxC rest (x :: before.reverse) st by
            simp only [chunkLoop]
            rw [if_pos hskip],
        show emitSpec alph k maxC ((x, cnt) :: rest) before
          = emitSpec alph k maxC rest (before ++ [x]) by
            simp only [emitSpec]
            rw [if_pos hskip],
        hrev]
      exact ih (before ++ [x]) st hlen' hsort'
    · have hscan : scanW alph x (x.getD 0 0) before.reverse
          = wSpecB alph x before := by
        apply scanW_eq alph k x before hk
        · intro y hy
          apply hlen
          rcases List.mem_append.mp hy with h | h
          · exact List.mem_append.mpr (Or.inl h)
          · simp only [List.mem_singleton] at h
            simp [h]
        · apply hsort.sublist
          apply List.Sublist.append_left
          simp only [List.map_cons]
          exact List.cons_sublist_cons.mpr (List.nil_sublist _)
      rw [show chunkLoop alph k maxC ((x, cnt) :: rest) before.reverse st
          = chunkLoop alph k maxC rest (x :: before.reverse)
              { W := st.W ++ [scanW alph x (x.getD 0 0) before.reverse],
                last := st.last ++ [!nextSameB x rest],
                wts := st.wts ++ [if cnt ≠ 0 ∧ x.getD 0 0 ≠ 0 ∧ x.getD 1 0 ≠ 0
                  then min cnt maxC else 0],
                ems := st.ems ++ [x],
                lastF := (advanceF alph st.W.length (x.getD k 0) st.lastF st.F).1,
                F := (advanceF alph st.W.length (x.getD k 0) st.lastF st.F).2 } by
            simp only [chunkLoop]
            rw [if_neg hskip],
        show emitSpec alph k maxC ((x, cnt) :: rest) before
          = (x, wSpecB alph x before, !nextSameB x rest,
              if cnt ≠ 0 ∧ x.getD 0 0 ≠ 0 ∧ x.getD 1 0 ≠ 0
                then min cnt maxC else 0) ::
              emitSpec alph k maxC rest (before ++ [x]) by
            simp only [emitSpec]
            rw [if_neg hskip],
        hrev]
      obtain ⟨ihW, ihL, ihwt, ihe⟩ := ih (before ++ [x]) _ hlen' hsort'
      refine ⟨?_, ?_, ?_, ?_⟩
      · rw [ihW, hscan]
        simp
      · rw [ihL]
        simp
      · rw [ihwt]
        simp
      · rw [ihe]
        simp

theorem getD_set' {F : List ℕ} {i b v : ℕ} (hi : i < F.length) :
    (F.set i v).getD b 0 = if i = b then v else F.getD b 0 := by
  by_cases hb : b < F.length
  · rw [List.getD_eq_getElem _ _ (by simpa using hb), List.getElem_set]
    by_cases hib : i = b
    · rw [if_pos hib, if_pos hib]
    · rw [if_neg hib, if_neg hib, List.getD_eq_getElem _ _ hb]
  · rw [if_neg (by omega)]
    rw [List.getD_eq_getElem?_getD, List.getD_eq_getElem?_getD,
      List.getElem?_eq_none (by simpa using Nat.le_of_not_lt hb),
      List.getElem?_eq_none (by omega)]

theorem advGo_spec (alph curpos : ℕ) (d : ℕ) (lastF : ℕ) (F : List ℕ)
    (hF : F.length = alph) (hl : lastF < alph) :
    (advGo alph curpos d lastF F).1 = min (lastF + d) (alph - 1) ∧
    (advGo alph curpos d lastF F).2.length = alph ∧
    (∀ b, b ≤ lastF →
      (advGo alph curpos d lastF F).2.getD b 0 = F.getD b 0) ∧
    (∀ b, lastF < b → b ≤ (advGo alph curpos d lastF F).1 →
      (advGo alph curpos d lastF F).2.getD b 0 = curpos - 1) ∧
    (∀ b, (advGo alph curpos d lastF F).1 < b →
      (advGo alph curpos d lastF F).2.getD b 0 = F.getD b 0) := by
  induction d generalizing lastF F with
  | zero =>
    rw [advGo]
    exact ⟨by omega, hF, fun b _ => rfl, fun b hb1 hb2 => by omega,
      fun b _ => rfl⟩
  | succ d ih =>
    rw [advGo]
    by_cases hc : lastF + 1 < alph
    · rw [if_pos hc]
      obtain ⟨ihA, ihB, ihC, ihD, ihE⟩ :=
        ih (lastF + 1) (F.set (lastF + 1) (curpos - 1)) (by simpa using hF)
          (by omega)
      refine ⟨by rw [ihA]; omega, ihB, ?_, ?_, ?_⟩
      · intro b hb
        rw [ihC b (by omega), getD_set' (by omega), if_neg (by omega)]
      · intro b hb1 hb2
        rcases Nat.eq_or_lt_of_le (Nat.succ_le_of_lt hb1) with he | hlt
        · rw [ihC b (by omega), getD_set' (by omega), if_pos (by omega)]
        · exact ihD b (by omega) hb2
      · intro b hb
        have hble : lastF + 1 < b := by
          rw [ihA] at hb
          omega
        rw [ihE b hb, getD_set' (by omega), if_neg (by omega)]
    · rw [if_neg hc]
      exact ⟨by omega, hF, fun b _ => rfl, fun b hb1 hb2 => by omega,
        fun b _ => rfl⟩

theorem advanceF_spec (alph curpos curF : ℕ) (lastF : ℕ) (F : List ℕ)
    (hF : F.length = alph) (hl : lastF < alph) :
    (advanceF alph curpos curF lastF F).1 = min (max lastF curF) (alph - 1) ∧
    (advanceF alph curpos curF lastF F).2.length = alph ∧
    (∀ b, b ≤ lastF →
      (advanceF alph curpos curF lastF F).2.getD b 0 = F.getD b 0) ∧
    (∀ b, lastF < b → b ≤ (advanceF alph curpos curF lastF F).1 →
      (advanceF alph curpos curF lastF F).2.getD b 0 = curpos - 1) ∧
    (∀ b, (advanceF alph curpos curF lastF F).1 < b →
      (advanceF alph curpos curF lastF F).2.getD b 0 = F.getD b 0) := by
  obtain ⟨hA, hB, hC, hD, hE⟩ :=
    advGo_spec alph curpos (curF - lastF) lastF F hF hl
  rw [advanceF]
  exact ⟨by rw [hA]; omega, hB, hC, hD, hE⟩

theorem fillGo_spec (curpos : ℕ) (d : ℕ) (lastF : ℕ) (F : List ℕ)
    (hrange : lastF + d < F.length) :
    (fillGo curpos d lastF F).length = F.length ∧
    (∀ b, (fillGo curpos d lastF F).getD b 0 =
      if lastF < b ∧ b ≤ lastF + d then curpos - 1 else F.getD b 0) := by
  induction d generalizing lastF F with
  | zero =>
    rw [fillGo]
    exact ⟨rfl, fun b => by rw [if_neg (by omega)]⟩
  | succ d ih =>
    rw [fillGo]
    obtain ⟨ihA, ihB⟩ := ih (lastF + 1) (F.set (lastF + 1) (curpos - 1))
      (by simp only [List.length_set]; omega)
    refine ⟨by rw [ihA]; simp, ?_⟩
    intro b
    rw [ihB b]
    by_cases hb : lastF + 1 < b ∧ b ≤ lastF + 1 + d
    · rw [if_pos hb, if_pos (by omega)]
    · rw [if_neg hb]
      by_cases hb2 : lastF < b ∧ b ≤ lastF + (d + 1)
      · rw [if_pos hb2, getD_set' (by omega), if_pos (by omega)]
      · rw [if_neg hb2, getD_set' (by omega), if_neg (by omega)]

theorem fillF_spec (alph curpos : ℕ) (lastF : ℕ) (F : List ℕ)
    (hF : F.length = alph) :
    (fillF alph curpos lastF F).length = alph ∧
    (∀ b, (fillF alph curpos lastF F).getD b 0 =
      if lastF < b ∧ b < alph then curpos - 1 else F.getD b 0) := by
  rcases Nat.lt_or_ge lastF alph with hl | hl
  · obtain ⟨hA, hB⟩ := fillGo_spec curpos (alph - lastF - 1) lastF F (by omega)
    rw [fillF]
    refine ⟨by rw [hA, hF], ?_⟩
    intro b
    rw [hB b]
    by_cases hb : lastF < b ∧ b ≤ lastF + (alph - lastF - 1)
    · rw [if_pos hb, if_pos (by omega)]
    · rw [if_neg hb, if_neg (by omega)]
  · rw [fillF, show alph - lastF - 1 = 0 by omega, fillGo]
    refine ⟨hF, ?_⟩
    intro b
    rw [if_neg (by omega)]

/-- Invariant of the `F` array through the linear pass: every finalised
entry `F[b]` (with `b ≤ lastF`) counts the emitted kmers whose last node
character is below `b`. -/
theorem chunkLoop_F (alph k maxC : ℕ) (todo : List (Kmer × ℕ))
    (prevRev : List Kmer) (st : ChunkSt)
    (ha : 0 < alph)
    (hwf : ∀ y ∈ todo, ∀ c ∈ y.1, c < alph)
    (hlen : ∀ y ∈ todo, (y.1).length = k + 1)
    (hsortc : List.Pairwise
      (fun a b : Kmer × ℕ => (a.1).getD k 0 ≤ (b.1).getD k 0) todo)
    (hF : st.F.length = alph) (hlF : st.lastF < alph)
    (hFc : ∀ b, b ≤ st.lastF →
      st.F.getD b 0 = st.ems.countP (fun e => decide (e.getD k 0 < b)))
    (hemc : ∀ e ∈ st.ems, e.getD k 0 ≤ st.lastF)
    (htc : ∀ y ∈ todo, st.lastF ≤ (y.1).getD k 0)
    (hW : st.W.length = st.ems.length + 1) :
    (chunkLoop alph k maxC todo prevRev st).F.length = alph ∧
    (chunkLoop alph k maxC todo prevRev st).lastF < alph ∧
    (∀ b, b ≤ (chunkLoop alph k maxC todo prevRev st).lastF →
      (chunkLoop alph k maxC todo prevRev st).F.getD b 0
        = (chunkLoop alph k maxC todo prevRev st).ems.countP
            (fun e => decide (e.getD k 0 < b))) ∧
    (∀ e ∈ (chunkLoop alph k maxC todo prevRev st).ems,
      e.getD k 0 ≤ (chunkLoop alph k maxC todo prevRev st).lastF) ∧
    (chunkLoop alph k maxC todo prevRev st).W.length
      = (chunkLoop alph k maxC todo prevRev st).ems.length + 1 := by
  induction todo generalizing prevRev st with
  | nil =>
    exact ⟨hF, hlF, hFc, hemc, hW⟩
  | cons hd rest ih =>
    obtain ⟨x, cnt⟩ := hd
    have hxlen : x.length = k + 1 := hlen (x, cnt) (by simp)
    have hcurF : x.getD k 0 < alph := by
      have hmem : x.getD k 0 ∈ x := by
        rw [List.getD_eq_getElem x 0 (by omega)]
        exact List.getElem_mem _
      exact hwf (x, cnt) (by simp) _ hmem
    have hlastle : st.lastF ≤ x.getD k 0 := htc (x, cnt) (by simp)
    have hwf' : ∀ y ∈ rest, ∀ c ∈ y.1, c < alph :=
      fun y hy => hwf y (by simp [hy])
    have hlen' : ∀ y ∈ rest, (y.1).length = k + 1 :=
      fun y hy => hlen y (by simp [hy])
    have hsortc' := (List.pairwise_cons.mp hsortc).2
    have hnext := (List.pairwise_cons.mp hsortc).1
    by_cases hskip :
        (nextSameB x rest && x.getD 0 0 == 0 && decide (0 < x.getD k 0)) = true
    · rw [show chunkLoop alph k maxC ((x, cnt) :: rest) prevRev st
          = chunkLoop alph k maxC rest (x :: prevRev) st by
            simp only [chunkLoop]
            rw [if_pos hskip]]
      exact ih (x :: prevRev) st hwf' hlen' hsortc' hF hlF hFc hemc
        (fun y hy => htc y (by simp [hy])) hW
    · have hstep : chunkLoop alph k maxC ((x, cnt) :: rest) prevRev st
          = chunkLoop alph k maxC rest (x :: prevRev)
              { W := st.W ++ [scanW alph x (x.getD 0 0) prevRev],
                last := st.last ++ [!nextSameB x rest],
                wts := st.wts ++
                  [if cnt ≠ 0 ∧ x.getD 0 0 ≠ 0 ∧ x.getD 1 0 ≠ 0
                    then min cnt maxC else 0],
                ems := st.ems ++ [x],
                lastF := (advanceF alph st.W.length (x.getD k 0) st.lastF st.F).1,
                F := (advanceF alph st.W.length (x.getD k 0) st.lastF st.F).2 } := by
        simp only [chunkLoop]
        rw [if_neg hskip]
      rw [hstep]
      obtain ⟨hA, hB, hC, hD, hE⟩ :=
        advanceF_spec alph st.W.length (x.getD k 0) st.lastF st.F hF hlF
      have hlf'le : (advanceF alph st.W.length (x.getD k 0) st.lastF st.F).1
          ≤ x.getD k 0 := by
        rw [hA]
        omega
      have hlf'ge : st.lastF
          ≤ (advanceF alph st.W.length (x.getD k 0) st.lastF st.F).1 := by
        rw [hA]
        omega
      have hxle : x.getD k 0
          ≤ (advanceF alph st.W.length (x.getD k 0) st.lastF st.F).1 := by
        rw [hA]
        omega
      have hlF' : (advanceF alph st.W.length (x.getD k 0) st.lastF st.F).1
          < alph := by
        rw [hA]
        omega
      have hFc' : ∀ b, b ≤ (advanceF alph st.W.length (x.getD k 0)
            st.lastF st.F).1 →
          (advanceF alph st.W.length (x.getD k 0) st.lastF st.F).2.getD b 0
            = (st.ems ++ [x]).countP (fun e => decide (e.getD k 0 < b)) := by
        intro b hb
        rw [List.countP_append, List.countP_cons, List.countP_nil]
        by_cases hble : b ≤ st.lastF
        · rw [hC b hble, hFc b hble,
            if_neg (by simp only [decide_eq_true_eq]; omega)]
          omega
        · have hb1 : st.lastF < b := by omega
          rw [hD b hb1 hb]
          have hall : st.ems.countP (fun e => decide (e.getD k 0 < b))
              = st.ems.length := by
            rw [List.countP_eq_length]
            intro e he
            simp only [decide_eq_true_eq]
            have := hemc e he
            omega
          rw [hall, if_neg (by simp only [decide_eq_true_eq]; omega)]
          omega
      have hemc' : ∀ e ∈ st.ems ++ [x],
          e.getD k 0 ≤ (advanceF alph st.W.length (x.getD k 0)
            st.lastF st.F).1 := by
        intro e he
        rcases List.mem_append.mp he with he | he
        · have := hemc e he
          omega
        · simp only [List.mem_singleton] at he
          subst he
          exact hxle
      have htc' : ∀ y ∈ rest,
          (advanceF alph st.W.length (x.getD k 0) st.lastF st.F).1
            ≤ (y.1).getD k 0 := by
        intro y hy
        have hxy := hnext y hy
        simp only at hxy
        omega
      have hW' : (st.W ++ [scanW alph x (x.getD 0 0) prevRev]).length
          = (st.ems ++ [x]).length + 1 := by
        simp only [List.length_append, List.length_singleton]
        omega
      exact ih (x :: prevRev) _ hwf' hlen' hsortc' hB hlF' hFc' hemc' htc' hW'

/-- The fields of a freshly built chunk, in terms of `emitSpec`. -/
theorem initialize_chunk_fields (alph k maxC : ℕ) (input : List (Kmer × ℕ))
    (hk : 1 ≤ k)
    (hlen : ∀ y ∈ input.map Prod.fst, y.length = k + 1)
    (hsort : List.Pairwise kLt (input.map Prod.fst)) :
    (initialize_chunk alph k maxC input).W
        = 0 :: (emitSpec alph k maxC input []).map (fun e => e.2.1) ∧
    (initialize_chunk alph k maxC input).last
        = false :: (emitSpec alph k maxC input []).map (fun e => e.2.2.1) ∧
    (initialize_chunk alph k maxC input).wts
        = 0 :: (emitSpec alph k maxC input []).map (fun e => e.2.2.2) ∧
    (initialize_chunk alph k maxC input).ems
        = (emitSpec alph k maxC input []).map (fun e => e.1) := by
  have h := chunkLoop_spec alph k maxC input [] ⟨[0], [false], [0], [],
    0, List.replicate alph 0⟩ hk (by simpa using hlen) (by simpa using hsort)
  rw [List.reverse_nil] at h
  obtain ⟨hW, hL, hwt, he⟩ := h
  exact ⟨by rw [initialize_chunk, hW]; rfl, by rw [initialize_chunk, hL]; rfl,
    by rw [initialize_chunk, hwt]; rfl, by rw [initialize_chunk, he]; rfl⟩

/-- The final `F` array: `F[b]` counts the emitted kmers whose last node
character is strictly below `b`. -/
theorem initialize_chunk_F_char (alph k maxC : ℕ) (input : List (Kmer × ℕ))
    (ha : 0 < alph)
    (hwf : ∀ y ∈ input, ∀ c ∈ y.1, c < alph)
    (hlen : ∀ y ∈ input, (y.1).length = k + 1)
    (hsort : List.Pairwise kLt (input.map Prod.fst)) :
    (initialize_chunk alph k maxC input).F.length = alph ∧
    (∀ b, b < alph → (initialize_chunk alph k maxC input).F.getD b 0
      = (initialize_chunk alph k maxC input).ems.countP
          (fun e => decide (e.getD k 0 < b))) ∧
    (initialize_chunk alph k maxC input).W.length
      = (initialize_chunk alph k maxC input).ems.length + 1 := by
  have hsortc : List.Pairwise
      (fun a b : Kmer × ℕ => (a.1).getD k 0 ≤ (b.1).getD k 0) input := by
    have h1 : List.Pairwise (fun a b : Kmer × ℕ => kLt a.1 b.1) input :=
      List.pairwise_map.mp hsort
    apply h1.imp_of_mem
    intro a b hma hmb hab
    exact charK_mono (hlen a hma) (hlen b hmb) (kLt_asymm hab)
  have hloop := chunkLoop_F alph k maxC input []
    ⟨[0], [false], [0], [], 0, List.replicate alph 0⟩ ha hwf hlen hsortc
    (by simp) (by simpa using ha)
    (by
      intro b hb
      interval_cases b
      simp)
    (by simp)
    (by simp)
    (by simp)
  obtain ⟨hFlen, hlFa, hFc, hemc, hWlen⟩ := hloop
  have hfill := fillF_spec alph
    (chunkLoop alph k maxC input [] ⟨[0], [false], [0], [], 0,
      List.replicate alph 0⟩).W.length
    (chunkLoop alph k maxC input [] ⟨[0], [false], [0], [], 0,
      List.replicate alph 0⟩).lastF
    (chunkLoop alph k maxC input [] ⟨[0], [false], [0], [], 0,
      List.replicate alph 0⟩).F hFlen
  refine ⟨hfill.1, ?_, hWlen⟩
  intro b hb
  rw [show (initialize_chunk alph k maxC input).ems
      = (chunkLoop alph k maxC input [] ⟨[0], [false], [0], [], 0,
          List.replicate alph 0⟩).ems from rfl]
  rw [show (initialize_chunk alph k maxC input).F
      = fillF alph (chunkLoop alph k maxC input [] ⟨[0], [false], [0], [], 0,
          List.replicate alph 0⟩).W.length
        (chunkLoop alph k maxC input [] ⟨[0], [false], [0], [], 0,
          List.replicate alph 0⟩).lastF
        (chunkLoop alph k maxC input [] ⟨[0], [false], [0], [], 0,
          List.replicate alph 0⟩).F by rw [initialize_chunk]]
  rw [hfill.2 b]
  by_cases hble : b ≤ (chunkLoop alph k maxC input [] ⟨[0], [false], [0], [],
      0, List.replicate alph 0⟩).lastF
  · rw [if_neg (by omega)]
    exact hFc b hble
  · rw [if_pos (by omega)]
    have hall : (chunkLoop alph k maxC input [] ⟨[0], [false], [0], [], 0,
        List.replicate alph 0⟩).ems.countP (fun e => decide (e.getD k 0 < b))
        = (chunkLoop alph k maxC input [] ⟨[0], [false], [0], [], 0,
            List.replicate alph 0⟩).ems.length := by
      rw [List.countP_eq_length]
      intro e he
      simp only [decide_eq_true_eq]
      have := hemc e he
      omega
    rw [hall]
    omega

/-- The kmers of the emitted entries form a sublist of the input kmers. -/
theorem emitSpec_sublist (alph k maxC : ℕ) (todo : List (Kmer × ℕ))
    (before : List Kmer) :
    ((emitSpec alph k maxC todo before).map (fun e => e.1)).Sublist
      (todo.map Prod.fst) := by
  induction todo generalizing before with
  | nil =>
    simp [emitSpec]
  | cons hd rest ih =>
    obtain ⟨x, cnt⟩ := hd
    rw [emitSpec]
    by_cases hskip :
        (nextSameB x rest && x.getD 0 0 == 0 && decide (0 < x.getD k 0)) = true
    · rw [if_pos hskip]
      exact (ih (before ++ [x])).trans (List.sublist_cons_self _ _)
    · rw [if_neg hskip]
      simp only [List.map_cons]
      exact List.cons_sublist_cons.mpr (ih (before ++ [x]))

/-- Every kmer with a nonzero edge label is emitted (only sentinel-labelled
dummy sink edges are ever skipped). -/
theorem emitSpec_keep (alph k maxC : ℕ) (todo : List (Kmer × ℕ))
    (before : List Kmer) (p : Kmer) (hp : p ∈ todo.map Prod.fst)
    (hp0 : p.getD 0 0 ≠ 0) :
    p ∈ (emitSpec alph k maxC todo before).map (fun e => e.1) := by
  induction todo generalizing before with
  | nil =>
    simp at hp
  | cons hd rest ih =>
    obtain ⟨x, cnt⟩ := hd
    rw [emitSpec]
    by_cases hskip :
        (nextSameB x rest && x.getD 0 0 == 0 && decide (0 < x.getD k 0)) = true
    · rw [if_pos hskip]
      rw [List.map_cons] at hp
      rcases List.mem_cons.mp hp with rfl | hp'
      · simp only [Bool.and_eq_true, beq_iff_eq] at hskip
        exact absurd hskip.1.2 hp0
      · exact ih (before ++ [x]) hp'
    · rw [if_neg hskip]
      rw [List.map_cons] at hp
      rcases List.mem_cons.mp hp with rfl | hp'
      · simp
      · simp only [List.map_cons, List.mem_cons]
        exact Or.inr (ih (before ++ [x]) hp')

/-- Does some kmer strictly below `x` in the array share positions
`2 .. k` and the edge label of `x`?  (The condition setting the duplicate
flag, stated over the whole input.) -/
def matesB (xs : List Kmer) (x : Kmer) : Bool :=
  xs.any fun p => kmerLtB p x && compare_suffix x p 1 && p.getD 0 0 == x.getD 0 0

/-- Each emitted `W` entry is the edge label of its kmer, plus `alph`
exactly when a strictly smaller kmer of the input shares positions
`2 .. k` and the (nonzero) edge label. -/
theorem emitSpec_W_char (alph k maxC : ℕ) (todo : List (Kmer × ℕ))
    (before : List Kmer)
    (hsort : List.Pairwise kLt (before ++ todo.map Prod.fst)) :
    ∀ e ∈ emitSpec alph k maxC todo before,
      e.2.1 = if 0 < e.1.getD 0 0 ∧
          matesB (before ++ todo.map Prod.fst) e.1 = true
        then e.1.getD 0 0 + alph else e.1.getD 0 0 := by
  induction todo generalizing before with
  | nil =>
    simp [emitSpec]
  | cons hd rest ih =>
    obtain ⟨x, cnt⟩ := hd
    have happ : (before ++ [x]) ++ rest.map Prod.fst
        = before ++ ((x, cnt) :: rest).map Prod.fst := by
      simp
    have hsort' : List.Pairwise kLt ((before ++ [x]) ++ rest.map Prod.fst) := by
      rw [happ]
      exact hsort
    rw [emitSpec]
    by_cases hskip :
        (nextSameB x rest && x.getD 0 0 == 0 && decide (0 < x.getD k 0)) = true
    · rw [if_pos hskip]
      intro e he
      rw [← happ]
      exact ih (before ++ [x]) hsort' e he
    · rw [if_neg hskip]
      intro e he
      rcases List.mem_cons.mp he with rfl | he'
      · -- the head entry: translate the scan over the prefix into the
        -- whole-array condition
        simp only [wSpecB]
        by_cases hc : 0 < x.getD 0 0
        · have hiff : (before.any fun p =>
              compare_suffix x p 1 && p.getD 0 0 == x.getD 0 0) =
              matesB (before ++ ((x, cnt) :: rest).map Prod.fst) x := by
            rw [Bool.eq_iff_iff]
            constructor
            · intro hv
              obtain ⟨p, hpmem, hP⟩ := List.any_eq_true.mp hv
              rw [Bool.and_eq_true] at hP
              have hplt : kLt p x := by
                rw [List.pairwise_append] at hsort
                exact hsort.2.2 p hpmem x (by simp)
              exact List.any_eq_true.mpr ⟨p, List.mem_append.mpr (Or.inl hpmem),
                by
                  simp only [Bool.and_eq_true]
                  exact ⟨⟨hplt, hP.1⟩, hP.2⟩⟩
            · intro hm'
              obtain ⟨p, hpmem, hP⟩ := List.any_eq_true.mp hm'
              simp only [Bool.and_eq_true] at hP
              obtain ⟨⟨hplt, hpcmp⟩, hpbeq⟩ := hP
              have hpbefore : p ∈ before := by
                rcases List.mem_append.mp hpmem with h | h
                · exact h
                · exfalso
                  rw [List.map_cons] at h
                  rcases List.mem_cons.mp h with rfl | h'
                  · exact kLt_irrefl p hplt
                  · have hxp : kLt x p := by
                      rw [List.pairwise_append] at hsort
                      have h2 := hsort.2.1
                      rw [List.map_cons, List.pairwise_cons] at h2
                      exact h2.1 p h'
                    exact kLt_asymm hxp hplt
              exact List.any_eq_true.mpr ⟨p, hpbefore, by
                rw [Bool.and_eq_true]
                exact ⟨hpcmp, hpbeq⟩⟩
          rw [hiff]
        · rw [if_neg (fun hh => hc hh.1), if_neg (fun hh => hc hh.1)]
      · rw [← happ]
        exact ih (before ++ [x]) hsort' e he'

theorem pairwise_lt_index {l : List Kmer} (h : List.Pairwise kLt l) {i j : ℕ}
    (hi : i < l.length) (hj : j < l.length)
    (hij : kLt (l.get ⟨i, hi⟩) (l.get ⟨j, hj⟩)) : i < j := by
  by_contra hc
  push_neg at hc
  rcases Nat.eq_or_lt_of_le hc with he | hlt
  · subst he
    exact kLt_irrefl _ hij
  · exact kLt_asymm (List.pairwise_iff_get.mp h ⟨j, hj⟩ ⟨i, hi⟩ hlt) hij

theorem getD_lt_alph {alph : ℕ} {input : List (Kmer × ℕ)} (ha : 0 < alph)
    (hwf : ∀ y ∈ input, ∀ c ∈ y.1, c < alph) {p : Kmer}
    (hp : p ∈ input.map Prod.fst) (n : ℕ) : p.getD n 0 < alph := by
  obtain ⟨q, hq, hqp⟩ := List.mem_map.mp hp
  rw [← hqp]
  rcases Nat.lt_or_ge n (q.1).length with hn | hn
  · rw [List.getD_eq_getElem _ _ hn]
    exact hwf q hq _ (List.getElem_mem _)
  · rw [List.getD_eq_getElem?_getD, List.getElem?_eq_none (by omega)]
    exact ha

/-- C1 (amended): `W[i]` carries the duplicate flag exactly when its label
is nonzero and an earlier emitted position shares the kmer characters at
positions `2 .. k` (the target node) and the same label class. -/
theorem C1_W_duplicate_flag (alph k maxC : ℕ) (input : List (Kmer × ℕ))
    (ha : 0 < alph) (hk : 1 ≤ k)
    (hwf : ∀ y ∈ input, ∀ c ∈ y.1, c < alph)
    (hlen : ∀ y ∈ input, (y.1).length = k + 1)
    (hsort : List.Pairwise kLt (input.map Prod.fst)) (i : ℕ) (hi1 : 1 ≤ i)
    (hi2 : i < (initialize_chunk alph k maxC input).W.length) :
    alph ≤ (initialize_chunk alph k maxC input).W.getD i 0 ↔
      ((initialize_chunk alph k maxC input).W.getD i 0 % alph ≠ 0 ∧
        ∃ j, 1 ≤ j ∧ j < i ∧
          compare_suffix
            ((initialize_chunk alph k maxC input).ems.getD (i - 1) [])
            ((initialize_chunk alph k maxC input).ems.getD (j - 1) []) 1
            = true ∧
          (initialize_chunk alph k maxC input).W.getD j 0 % alph
            = (initialize_chunk alph k maxC input).W.getD i 0 % alph) := by
  obtain ⟨hWf, hLf, hwtf, hef⟩ := initialize_chunk_fields alph k maxC input hk
    (by
      intro y hy
      obtain ⟨p, hp, rfl⟩ := List.mem_map.mp hy
      exact hlen p hp)
    hsort
  have hchar := emitSpec_W_char alph k maxC input [] (by simpa using hsort)
  obtain ⟨i', rfl⟩ : ∃ i', i = i' + 1 := ⟨i - 1, by omega⟩
  have hi' : i' < (emitSpec alph k maxC input []).length := by
    rw [hWf] at hi2
    simpa using hi2
  -- notation for the emitted entries and their kmers
  have hW_at : ∀ (n : ℕ) (hn : n < (emitSpec alph k maxC input []).length),
      (initialize_chunk alph k maxC input).W.getD (n + 1) 0
        = ((emitSpec alph k maxC input []).get ⟨n, hn⟩).2.1 := by
    intro n hn
    rw [hWf, List.getD_cons_succ, List.getD_eq_getElem _ _ (by simpa using hn),
      List.getElem_map]
    rfl
  have he_at : ∀ (n : ℕ) (hn : n < (emitSpec alph k maxC input []).length),
      (initialize_chunk alph k maxC input).ems.getD n []
        = ((emitSpec alph k maxC input []).get ⟨n, hn⟩).1 := by
    intro n hn
    rw [hef, List.getD_eq_getElem _ _ (by simpa using hn), List.getElem_map]
    rfl
  have hes_pw : List.Pairwise kLt
      ((emitSpec alph k maxC input []).map (fun e => e.1)) :=
    List.Pairwise.sublist (emitSpec_sublist alph k maxC input []) hsort
  set L := emitSpec alph k maxC input [] with hL
  set x := (L.get ⟨i', hi'⟩).1 with hx
  have hx_mem_L : L.get ⟨i', hi'⟩ ∈ L := List.get_mem L i' hi'
  have hx_in : x ∈ input.map Prod.fst :=
    (emitSpec_sublist alph k maxC input []).subset
      (by
        rw [hx]
        exact List.mem_map.mpr ⟨L.get ⟨i', hi'⟩, hx_mem_L, rfl⟩)
  have hx_lt : x.getD 0 0 < alph := getD_lt_alph ha hwf hx_in 0
  have hxw := hchar (L.get ⟨i', hi'⟩) hx_mem_L
  rw [List.nil_append] at hxw
  have hWi : (initialize_chunk alph k maxC input).W.getD (i' + 1) 0
      = if 0 < x.getD 0 0 ∧ matesB (input.map Prod.fst) x = true
        then x.getD 0 0 + alph else x.getD 0 0 := by
    rw [hW_at i' hi']
    exact hxw
  have hWimod : (initialize_chunk alph k maxC input).W.getD (i' + 1) 0 % alph
      = x.getD 0 0 := by
    rw [hWi]
    by_cases hcond : 0 < x.getD 0 0 ∧ matesB (input.map Prod.fst) x = true
    · rw [if_pos hcond, Nat.add_mod_right, Nat.mod_eq_of_lt hx_lt]
    · rw [if_neg hcond, Nat.mod_eq_of_lt hx_lt]
  constructor
  · -- flagged ⟹ an earlier emitted mate exists
    intro hflag
    have hcond : 0 < x.getD 0 0 ∧ matesB (input.map Prod.fst) x = true := by
      by_contra hcond
      rw [hWi, if_neg hcond] at hflag
      omega
    obtain ⟨hpos, hmate⟩ := hcond
    obtain ⟨p, hpmem, hP⟩ := List.any_eq_true.mp hmate
    simp only [Bool.and_eq_true, beq_iff_eq] at hP
    obtain ⟨⟨hplt, hpcmp⟩, hpbeq⟩ := hP
    have hp0 : p.getD 0 0 ≠ 0 := by
      rw [hpbeq]
      omega
    have hpes : p ∈ L.map (fun e => e.1) :=
      emitSpec_keep alph k maxC input [] p hpmem hp0
    obtain ⟨j', hj', hpj⟩ := List.mem_iff_getElem.mp hpes
    rw [List.length_map] at hj'
    have hpj' : (L.get ⟨j', hj'⟩).1 = p := by
      rw [← hpj, List.getElem_map]
      rfl
    have hji : j' < i' := by
      apply pairwise_lt_index hes_pw (by simpa using hj') (by simpa using hi')
      have hg1 : (L.map (fun e => e.1)).get ⟨j', by simpa using hj'⟩ = p := by
        rw [← hpj]
        rfl
      have hg2 : (L.map (fun e => e.1)).get ⟨i', by simpa using hi'⟩ = x := by
        rw [hx]
        simp
      rw [hg1, hg2]
      exact hplt
    refine ⟨by rw [hWimod]; omega, j' + 1, by omega, by omega, ?_, ?_⟩
    · simp only [Nat.add_sub_cancel]
      rw [he_at i' hi', he_at j' (by omega : j' < L.length)]
      rw [hpj']
      exact hpcmp
    · have hjw := hchar (L.get ⟨j', hj'⟩) (List.get_mem L j' hj')
      rw [List.nil_append] at hjw
      have hjlt : p.getD 0 0 < alph := getD_lt_alph ha hwf hpmem 0
      rw [hW_at j' hj', hjw, hWimod]
      by_cases hcond2 : 0 < (L.get ⟨j', hj'⟩).1.getD 0 0 ∧
          matesB (input.map Prod.fst) (L.get ⟨j', hj'⟩).1 = true
      · rw [if_pos hcond2, hpj', Nat.add_mod_right, Nat.mod_eq_of_lt hjlt,
          hpbeq]
      · rw [if_neg hcond2, hpj', Nat.mod_eq_of_lt hjlt, hpbeq]
  · -- an earlier emitted mate ⟹ flagged
    rintro ⟨hmod, j, hj1, hji, hcmp, hjmod⟩
    obtain ⟨j', rfl⟩ : ∃ j', j = j' + 1 := ⟨j - 1, by omega⟩
    have hj' : j' < L.length := by omega
    set e := (L.get ⟨j', hj'⟩).1 with hedef
    have he_in : e ∈ input.map Prod.fst :=
      (emitSpec_sublist alph k maxC input []).subset
        (List.mem_map.mpr ⟨L.get ⟨j', hj'⟩, List.get_mem L j' hj', rfl⟩)
    have helt : kLt e x := by
      have := List.pairwise_iff_get.mp hes_pw ⟨j', by simpa using hj'⟩
        ⟨i', by simpa using hi'⟩ (by simpa using hji)
      simpa using this
    have he_lt : e.getD 0 0 < alph := getD_lt_alph ha hwf he_in 0
    have hjw := hchar (L.get ⟨j', hj'⟩) (List.get_mem L j' hj')
    rw [List.nil_append] at hjw
    have hjmod' : (initialize_chunk alph k maxC input).W.getD (j' + 1) 0 % alph
        = e.getD 0 0 := by
      rw [hW_at j' hj', hjw]
      by_cases hcond2 : 0 < e.getD 0 0 ∧
          matesB (input.map Prod.fst) e = true
      · rw [← hedef, if_pos hcond2, Nat.add_mod_right, Nat.mod_eq_of_lt he_lt]
      · rw [← hedef, if_neg hcond2, Nat.mod_eq_of_lt he_lt]
    have he0 : e.getD 0 0 = x.getD 0 0 := by
      rw [← hjmod', hjmod, hWimod]
    have hx0 : 0 < x.getD 0 0 := by
      rw [hWimod] at hmod
      omega
    have hmate : matesB (input.map Prod.fst) x = true := by
      apply List.any_eq_true.mpr
      refine ⟨e, he_in, ?_⟩
      simp only [Bool.and_eq_true, beq_iff_eq]
      refine ⟨⟨helt, ?_⟩, he0⟩
      simp only [Nat.add_sub_cancel] at hcmp
      rw [he_at i' hi', he_at j' hj'] at hcmp
      exact hcmp
    rw [hWi, if_pos ⟨hx0, hmate⟩]
    omega

/-- C1, counterexample: with the node-prefix comparison taken at positions
`1 .. k` (the full node, `compare_suffix` at offset 0) as the claim states
it, the biconditional fails: for the sorted distinct 3-mers
`[1,1,2]` and `[1,2,2]` (alphabet size 5, `k = 2`) the builder flags
`W[2] = 6 ≥ 5`, yet no earlier emitted position has an identical
node-prefix (positions 1..2). -/
theorem C1_counterexample :
    ¬ (5 ≤ (initialize_chunk 5 2 0 [([1,1,2],0), ([1,2,2],0)]).W.getD 2 0 ↔
        ((initialize_chunk 5 2 0 [([1,1,2],0), ([1,2,2],0)]).W.getD 2 0 % 5
            ≠ 0 ∧
          ∃ j, 1 ≤ j ∧ j < 2 ∧
            compare_suffix
              ((initialize_chunk 5 2 0
                [([1,1,2],0), ([1,2,2],0)]).ems.getD (2 - 1) [])
              ((initialize_chunk 5 2 0
                [([1,1,2],0), ([1,2,2],0)]).ems.getD (j - 1) []) 0 = true ∧
            (initialize_chunk 5 2 0 [([1,1,2],0), ([1,2,2],0)]).W.getD j 0 % 5
              = (initialize_chunk 5 2 0
                  [([1,1,2],0), ([1,2,2],0)]).W.getD 2 0 % 5)) := by
  intro h
  obtain ⟨-, j, hj1, hj2, hcmp, hmod⟩ := h.mp (by decide)
  interval_cases j
  revert hcmp hmod
  decide

/-- Witness for `C1_W_duplicate_flag` at the concrete input of the
counterexample: position 2 is flagged and the amended condition holds. -/
theorem C1_witness :
    (0 : ℕ) < 5 ∧ (1 : ℕ) ≤ 2 ∧
    (5 ≤ (initialize_chunk 5 2 0 [([1,1,2],0), ([1,2,2],0)]).W.getD 2 0 ↔
      ((initialize_chunk 5 2 0 [([1,1,2],0), ([1,2,2],0)]).W.getD 2 0 % 5
          ≠ 0 ∧
        ∃ j, 1 ≤ j ∧ j < 2 ∧
          compare_suffix
            ((initialize_chunk 5 2 0
              [([1,1,2],0), ([1,2,2],0)]).ems.getD (2 - 1) [])
            ((initialize_chunk 5 2 0
              [([1,1,2],0), ([1,2,2],0)]).ems.getD (j - 1) []) 1 = true ∧
          (initialize_chunk 5 2 0 [([1,1,2],0), ([1,2,2],0)]).W.getD j 0 % 5
            = (initialize_chunk 5 2 0
                [([1,1,2],0), ([1,2,2],0)]).W.getD 2 0 % 5)) :=
  ⟨by decide, by decide,
    C1_W_duplicate_flag 5 2 0 [([1,1,2],0), ([1,2,2],0)] (by decide)
      (by decide) (by decide) (by decide) (by decide) 2 (by decide) (by decide)⟩

theorem countP_lt_succ (k a : ℕ) (l : List Kmer) :
    l.countP (fun e => decide (e.getD k 0 < a + 1)) =
      l.countP (fun e => decide (e.getD k 0 < a)) +
        l.countP (fun e => decide (e.getD k 0 = a)) := by
  induction l with
  | nil => simp
  | cons e t ih =>
    simp only [List.countP_cons, ih, decide_eq_true_eq]
    split_ifs <;> omega

/-- C5 (amended): `W` and `last` have equal length, `F[0] = 0`, `F` is
non-decreasing, and for every character `a` the number of emitted
positions `i ≥ 1` whose kmer has last node character `a` (the ghost list
`ems` holds exactly these kmers, in position order) equals
`F[a+1] - F[a]`, with `F[alph]` read as the chunk size `n`.  (The claim
restricted the count to positions with `last[i] = 1`; the code counts all
emitted positions.) -/
theorem C5_boss_invariants (alph k maxC : ℕ) (input : List (Kmer × ℕ))
    (ha : 0 < alph) (hk : 1 ≤ k)
    (hwf : ∀ y ∈ input, ∀ c ∈ y.1, c < alph)
    (hlen : ∀ y ∈ input, (y.1).length = k + 1)
    (hsort : List.Pairwise kLt (input.map Prod.fst)) :
    (initialize_chunk alph k maxC input).W.length
        = (initialize_chunk alph k maxC input).last.length ∧
    (initialize_chunk alph k maxC input).F.getD 0 0 = 0 ∧
    (∀ a b, a ≤ b → b < alph →
      (initialize_chunk alph k maxC input).F.getD a 0
        ≤ (initialize_chunk alph k maxC input).F.getD b 0) ∧
    (∀ a, a < alph →
      (initialize_chunk alph k maxC input).ems.countP
          (fun e => decide (e.getD k 0 = a))
        = (if a + 1 < alph
            then (initialize_chunk alph k maxC input).F.getD (a + 1) 0
            else (initialize_chunk alph k maxC input).W.length - 1)
          - (initialize_chunk alph k maxC input).F.getD a 0) := by
  obtain ⟨hWf, hLf, hwtf, hef⟩ := initialize_chunk_fields alph k maxC input hk
    (by
      intro y hy
      obtain ⟨p, hp, rfl⟩ := List.mem_map.mp hy
      exact hlen p hp)
    hsort
  obtain ⟨hFlen, hFc, hWlen⟩ :=
    initialize_chunk_F_char alph k maxC input ha hwf hlen hsort
  have hems_sub : ∀ e ∈ (initialize_chunk alph k maxC input).ems,
      e ∈ input.map Prod.fst := by
    intro e he
    rw [hef] at he
    exact (emitSpec_sublist alph k maxC input []).subset he
  have hchar_lt : ∀ e ∈ (initialize_chunk alph k maxC input).ems,
      e.getD k 0 < alph := by
    intro e he
    exact getD_lt_alph ha hwf (hems_sub e he) k
  refine ⟨?_, ?_, ?_, ?_⟩
  · rw [hWf, hLf]
    simp
  · rw [hFc 0 ha]
    rw [List.countP_eq_zero]
    intro e he
    simp
  · intro a b hab hb
    rw [hFc a (by omega), hFc b hb]
    apply List.countP_mono_left
    intro e he
    simp only [decide_eq_true_eq]
    omega
  · intro a hA
    by_cases hA1 : a + 1 < alph
    · rw [if_pos hA1, hFc (a + 1) hA1, hFc a (by omega),
        countP_lt_succ k a]
      omega
    · rw [if_neg hA1, hFc a (by omega), hWlen]
      have hfull : (initialize_chunk alph k maxC input).ems.countP
          (fun e => decide (e.getD k 0 < a + 1))
          = (initialize_chunk alph k maxC input).ems.length := by
        rw [List.countP_eq_length]
        intro e he
        simp only [decide_eq_true_eq]
        have := hchar_lt e he
        omega
      have hsplit := countP_lt_succ k a (initialize_chunk alph k maxC input).ems
      rw [hfull] at hsplit
      have hle : (initialize_chunk alph k maxC input).ems.countP
          (fun e => decide (e.getD k 0 < a))
          ≤ (initialize_chunk alph k maxC input).ems.length :=
        List.countP_le_length _
      omega

/-- C5, counterexample: with the count restricted to positions carrying
`last[i] = 1`, the balance against `F` fails: for the two edges
`[1,1,2]`, `[2,1,2]` out of one node (alphabet size 5, `k = 2`),
`F[3] - F[2] = 2` but only one of the two positions with last node
character 2 has `last = 1`. -/
theorem C5_counterexample :
    ¬ ((initialize_chunk 5 2 0 [([1,1,2],0), ([2,1,2],0)]).W.length
          = (initialize_chunk 5 2 0 [([1,1,2],0), ([2,1,2],0)]).last.length ∧
       (initialize_chunk 5 2 0 [([1,1,2],0), ([2,1,2],0)]).F.getD 0 0 = 0 ∧
       (∀ a b, a ≤ b → b < 5 →
         (initialize_chunk 5 2 0 [([1,1,2],0), ([2,1,2],0)]).F.getD a 0
           ≤ (initialize_chunk 5 2 0 [([1,1,2],0), ([2,1,2],0)]).F.getD b 0) ∧
       (∀ a, a < 5 →
         (List.range (initialize_chunk 5 2 0
             [([1,1,2],0), ([2,1,2],0)]).W.length).countP
            (fun i => decide (1 ≤ i) &&
              (initialize_chunk 5 2 0
                [([1,1,2],0), ([2,1,2],0)]).last.getD i false &&
              ((initialize_chunk 5 2 0
                [([1,1,2],0), ([2,1,2],0)]).ems.getD (i - 1) []).getD 2 0 == a)
           = (if a + 1 < 5
               then (initialize_chunk 5 2 0
                 [([1,1,2],0), ([2,1,2],0)]).F.getD (a + 1) 0
               else (initialize_chunk 5 2 0
                 [([1,1,2],0), ([2,1,2],0)]).W.length - 1)
             - (initialize_chunk 5 2 0
                 [([1,1,2],0), ([2,1,2],0)]).F.getD a 0)) := by
  intro h
  have h4 := h.2.2.2 2 (by norm_num)
  revert h4
  decide

/-- Witness for `C5_boss_invariants` at the counterexample input. -/
theorem C5_witness :
    (0 : ℕ) < 5 ∧
    ((initialize_chunk 5 2 0 [([1,1,2],0), ([2,1,2],0)]).W.length
        = (initialize_chunk 5 2 0 [([1,1,2],0), ([2,1,2],0)]).last.length ∧
      (initialize_chunk 5 2 0 [([1,1,2],0), ([2,1,2],0)]).F.getD 0 0 = 0 ∧
      (∀ a b, a ≤ b → b < 5 →
        (initialize_chunk 5 2 0 [([1,1,2],0), ([2,1,2],0)]).F.getD a 0
          ≤ (initialize_chunk 5 2 0 [([1,1,2],0), ([2,1,2],0)]).F.getD b 0) ∧
      (∀ a, a < 5 →
        (initialize_chunk 5 2 0 [([1,1,2],0), ([2,1,2],0)]).ems.countP
            (fun e => decide (e.getD 2 0 = a))
          = (if a + 1 < 5
              then (initialize_chunk 5 2 0
                [([1,1,2],0), ([2,1,2],0)]).F.getD (a + 1) 0
              else (initialize_chunk 5 2 0
                [([1,1,2],0), ([2,1,2],0)]).W.length - 1)
            - (initialize_chunk 5 2 0
                [([1,1,2],0), ([2,1,2],0)]).F.getD a 0)) :=
  ⟨by decide,
    C5_boss_invariants 5 2 0 [([1,1,2],0), ([2,1,2],0)] (by decide) (by decide)
      (by decide) (by decide) (by decide)⟩

/-- A kmer that satisfies the dummy-sink-skip condition (next array entry
with the same node, sentinel label, nonzero last node character) never
appears among the emitted entries. -/
theorem emitSpec_skip_notMem (alph k maxC : ℕ) (x y : Kmer × ℕ)
    (post : List (Kmer × ℕ)) (hcmp : compare_suffix x.1 y.1 0 = true)
    (h0 : (x.1).getD 0 0 = 0) (hF : 0 < (x.1).getD k 0) :
    ∀ (pre : List (Kmer × ℕ)) (before : List Kmer),
      List.Pairwise kLt ((pre ++ x :: y :: post).map Prod.fst) →
      x.1 ∉ (emitSpec alph k maxC (pre ++ x :: y :: post) before).map
        (fun e => e.1) := by
  obtain ⟨x1, x2⟩ := x
  obtain ⟨y1, y2⟩ := y
  simp only at hcmp h0 hF
  intro pre
  induction pre with
  | nil =>
    intro before hsort hmem
    rw [List.nil_append] at hmem hsort
    have hskip : (nextSameB x1 ((y1, y2) :: post) && x1.getD 0 0 == 0 &&
        decide (0 < x1.getD k 0)) = true := by
      rw [show nextSameB x1 ((y1, y2) :: post) = compare_suffix x1 y1 0
          from rfl, hcmp, h0]
      simp only [Bool.true_and, beq_self_eq_true, decide_eq_true_eq]
      exact hF
    rw [show emitSpec alph k maxC ((x1, x2) :: (y1, y2) :: post) before
        = emitSpec alph k maxC ((y1, y2) :: post) (before ++ [x1]) by
          simp only [emitSpec]
          rw [if_pos hskip]] at hmem
    have hx1 : x1 ∈ ((y1, y2) :: post).map Prod.fst :=
      (emitSpec_sublist alph k maxC ((y1, y2) :: post)
        (before ++ [x1])).subset hmem
    rw [List.map_cons, List.pairwise_cons] at hsort
    exact kLt_irrefl x1 (hsort.1 x1 hx1)
  | cons hd t ih =>
    obtain ⟨h1, h2⟩ := hd
    intro before hsort hmem
    rw [List.cons_append] at hmem hsort
    rw [List.map_cons, List.pairwise_cons] at hsort
    have hlt : kLt h1 x1 :=
      hsort.1 x1 (by
        rw [List.map_append, List.map_cons]
        exact List.mem_append.mpr (Or.inr (by simp)))
    by_cases hskip : (nextSameB h1 (t ++ (x1, x2) :: (y1, y2) :: post) &&
        h1.getD 0 0 == 0 && decide (0 < h1.getD k 0)) = true
    · rw [show emitSpec alph k maxC
          ((h1, h2) :: (t ++ (x1, x2) :: (y1, y2) :: post)) before
          = emitSpec alph k maxC (t ++ (x1, x2) :: (y1, y2) :: post)
              (before ++ [h1]) by
            simp only [emitSpec]
            rw [if_pos hskip]] at hmem
      exact ih (before ++ [h1]) hsort.2 hmem
    · rw [show emitSpec alph k maxC
          ((h1, h2) :: (t ++ (x1, x2) :: (y1, y2) :: post)) before
          = (h1, wSpecB alph h1 before,
              !nextSameB h1 (t ++ (x1, x2) :: (y1, y2) :: post),
              if h2 ≠ 0 ∧ h1.getD 0 0 ≠ 0 ∧ h1.getD 1 0 ≠ 0
                then min h2 maxC else 0) ::
            emitSpec alph k maxC (t ++ (x1, x2) :: (y1, y2) :: post)
              (before ++ [h1]) by
            simp only [emitSpec]
            rw [if_neg hskip]] at hmem
      rw [List.map_cons] at hmem
      simp only at hmem
      rcases List.mem_cons.mp hmem with he | he
      · rw [he] at hlt
        exact kLt_irrefl h1 hlt
      · exact ih (before ++ [h1]) hsort.2 he

/-- C6: a kmer whose successor in the sorted array shares the full node
(positions `1 .. k`) and which has sentinel edge label and a nonzero last
node character is skipped entirely by the chunk builder: it appears at no
emitted position (`ems` records the kmer of every emitted position, and
`W`, `last`, `weights` each hold exactly one entry per emitted position
plus the reserved head). -/
theorem C6_dummy_sink_skipped (alph k maxC : ℕ)
    (pre post : List (Kmer × ℕ)) (x y : Kmer × ℕ) (hk : 1 ≤ k)
    (hlen : ∀ z ∈ pre ++ x :: y :: post, (z.1).length = k + 1)
    (hsort : List.Pairwise kLt ((pre ++ x :: y :: post).map Prod.fst))
    (hcmp : compare_suffix x.1 y.1 0 = true)
    (h0 : (x.1).getD 0 0 = 0) (hF : 0 < (x.1).getD k 0) :
    x.1 ∉ (initialize_chunk alph k maxC (pre ++ x :: y :: post)).ems ∧
    (initialize_chunk alph k maxC (pre ++ x :: y :: post)).W.length
      = (initialize_chunk alph k maxC (pre ++ x :: y :: post)).ems.length
        + 1 ∧
    (initialize_chunk alph k maxC (pre ++ x :: y :: post)).last.length
      = (initialize_chunk alph k maxC (pre ++ x :: y :: post)).ems.length
        + 1 ∧
    (initialize_chunk alph k maxC (pre ++ x :: y :: post)).wts.length
      = (initialize_chunk alph k maxC (pre ++ x :: y :: post)).ems.length
        + 1 := by
  obtain ⟨hWf, hLf, hwtf, hef⟩ := initialize_chunk_fields alph k maxC
    (pre ++ x :: y :: post) hk
    (by
      intro z hz
      obtain ⟨p, hp, rfl⟩ := List.mem_map.mp hz
      exact hlen p hp)
    hsort
  refine ⟨?_, ?_, ?_, ?_⟩
  · rw [hef]
    exact emitSpec_skip_notMem alph k maxC x y post hcmp h0 hF pre [] hsort
  · rw [hWf, hef]
    simp
  · rw [hLf, hef]
    simp
  · rw [hwtf, hef]
    simp

/-- Witness for `C6_dummy_sink_skipped`: the dummy sink edge `[0,1,2]`
(`$`-labelled, node shared with `[1,1,2]`) is not emitted. -/
theorem C6_witness :
    compare_suffix [0,1,2] [1,1,2] 0 = true ∧
    ([0,1,2] : Kmer).getD 0 0 = 0 ∧ 0 < ([0,1,2] : Kmer).getD 2 0 ∧
    [0,1,2] ∉ (initialize_chunk 5 2 0 [([0,1,2],0), ([1,1,2],0)]).ems :=
  ⟨by decide, by decide, by decide,
    (C6_dummy_sink_skipped 5 2 0 [] [] ([0,1,2],0) ([1,1,2],0) (by decide)
      (by decide) (by decide) (by decide) (by decide) (by decide)).1⟩

/-! ### BOSS chunks and `BOSS::Chunk::extend` (boss_chunk.cpp, lines
185-230).  Weights are held as plain numbers; the sdsl width tag is not
part of the in-memory contents compared here. -/

structure Chunk where
  alph : ℕ
  k : ℕ
  canonical : Bool
  W : List ℕ
  last : List Bool
  F : List ℕ
  weights : List ℕ

/-- `size()` is `W_.size() - 1`. -/
def Chunk.size (c : Chunk) : ℕ := c.W.length - 1

/-- `for (p = 0; p < other.F_.size(); ++p) F_[p] += other.F_[p]`
(in bounds whenever `g` is not longer than `f`, which the callers'
invariant `F_.size() == alph_size_` guarantees). -/
def addF (f g : List ℕ) : List ℕ := List.zipWith (· + ·) f g ++ f.drop g.length

/-- `std::copy(src.begin(), src.end(), dst.begin() + pos)`. -/
def copyInto (dst : List ℕ) (pos : ℕ) (src : List ℕ) : List ℕ :=
  dst.take pos ++ src ++ dst.drop (pos + src.length)

/-- `BOSS::Chunk::extend`: `none` models the `exit(1)` error paths. -/
def Chunk.extend (a b : Chunk) : Option Chunk :=
  if a.alph ≠ b.alph ∨ a.k ≠ b.k ∨ a.canonical ≠ b.canonical then none
  else if b.size = 0 then some a
  else if a.size = 0 then some b
  else if a.weights.isEmpty ≠ b.weights.isEmpty then none
  else some { a with
    W := a.W ++ b.W.drop 1,
    last := a.last ++ b.last.drop 1,
    F := addF a.F b.F,
    weights := if b.weights.isEmpty then a.weights
      else copyInto (a.weights ++ List.replicate b.size 0)
            a.weights.length (b.weights.drop 1) }

theorem zipWith_add_assoc (f g h : List ℕ) :
    List.zipWith (· + ·) (List.zipWith (· + ·) f g) h
      = List.zipWith (· + ·) f (List.zipWith (· + ·) g h) := by
  induction f generalizing g h with
  | nil => simp
  | cons a f ih =>
    cases g with
    | nil => simp
    | cons b g =>
      cases h with
      | nil => simp
      | cons c h =>
        simp only [List.zipWith_cons_cons, ih]
        rw [Nat.add_assoc]

theorem addF_length {f g : List ℕ} (h : g.length ≤ f.length) :
    (addF f g).length = f.length := by
  rw [addF, List.length_append, List.length_zipWith, List.length_drop]
  omega

theorem addF_eq_zipWith {f g : List ℕ} (h : g.length = f.length) :
    addF f g = List.zipWith (· + ·) f g := by
  rw [addF, List.drop_eq_nil_of_le (by omega), List.append_nil]

theorem addF_assoc {f g h : List ℕ} (hfg : f.length = g.length)
    (hgh : g.length = h.length) :
    addF (addF f g) h = addF f (addF g h) := by
  have h1 : (List.zipWith (· + ·) f g).length = f.length := by
    rw [List.length_zipWith]
    omega
  have h2 : (List.zipWith (· + ·) g h).length = g.length := by
    rw [List.length_zipWith]
    omega
  have e1 : addF f g = List.zipWith (· + ·) f g := addF_eq_zipWith (by omega)
  have e2 : addF g h = List.zipWith (· + ·) g h := addF_eq_zipWith (by omega)
  rw [e1, e2]
  rw [addF_eq_zipWith (by rw [h1]; omega), addF_eq_zipWith (by rw [h2]; omega)]
  exact zipWith_add_assoc f g h

theorem copyInto_length_ge (dst : List ℕ) (pos : ℕ) (src : List ℕ) :
    dst.length ≤ (copyInto dst pos src).length := by
  rw [copyInto]
  simp only [List.length_append, List.length_take, List.length_drop]
  omega

theorem extend_bzero (a b : Chunk) (h1 : a.alph = b.alph) (h2 : a.k = b.k)
    (h3 : a.canonical = b.canonical) (hb : b.size = 0) :
    a.extend b = some a := by
  rw [Chunk.extend, if_neg (by simp [h1, h2, h3]), if_pos hb]

theorem extend_azero (a b : Chunk) (h1 : a.alph = b.alph) (h2 : a.k = b.k)
    (h3 : a.canonical = b.canonical) (hb : b.size ≠ 0) (ha : a.size = 0) :
    a.extend b = some b := by
  rw [Chunk.extend, if_neg (by simp [h1, h2, h3]), if_neg hb, if_pos ha]

theorem extend_ok (a b : Chunk) (h1 : a.alph = b.alph) (h2 : a.k = b.k)
    (h3 : a.canonical = b.canonical) (hb : b.size ≠ 0) (ha : a.size ≠ 0)
    (hw : a.weights.isEmpty = b.weights.isEmpty) :
    ∃ m, a.extend b = some m ∧ m.alph = a.alph ∧ m.k = a.k ∧
      m.canonical = a.canonical ∧ m.W = a.W ++ b.W.drop 1 ∧
      m.last = a.last ++ b.last.drop 1 ∧ m.F = addF a.F b.F ∧
      m.weights.isEmpty = a.weights.isEmpty := by
  refine ⟨{ a with
      W := a.W ++ b.W.drop 1,
      last := a.last ++ b.last.drop 1,
      F := addF a.F b.F,
      weights := if b.weights.isEmpty then a.weights
        else copyInto (a.weights ++ List.replicate b.size 0)
          a.weights.length (b.weights.drop 1) }, ?_, rfl, rfl, rfl, rfl, rfl, rfl, ?_⟩
  · rw [Chunk.extend, if_neg (by simp [h1, h2, h3]), if_neg hb, if_neg ha,
      if_neg (by simp [hw])]
  · show (if b.weights.isEmpty then a.weights
      else copyInto (a.weights ++ List.replicate b.size 0)
        a.weights.length (b.weights.drop 1)).isEmpty = a.weights.isEmpty
    by_cases hbe : b.weights.isEmpty
    · rw [if_pos hbe]
    · rw [if_neg hbe]
      have haw : a.weights.isEmpty = false := by
        rw [hw]
        exact Bool.not_eq_true _ ▸ hbe
      have hlen : 1 ≤ (copyInto (a.weights ++ List.replicate b.size 0)
          a.weights.length (b.weights.drop 1)).length := by
        have := copyInto_length_ge (a.weights ++ List.replicate b.size 0)
          a.weights.length (b.weights.drop 1)
        rw [List.length_append, List.length_replicate] at this
        have hbs : 1 ≤ b.size := Nat.one_le_iff_ne_zero.mpr hb
        omega
      rw [haw]
      cases hres : copyInto (a.weights ++ List.replicate b.size 0)
          a.weights.length (b.weights.drop 1) with
      | nil => rw [hres] at hlen; simp at hlen
      | cons x xs => rfl

/-- C7: chunk concatenation is associative.  For chunks `A`, `B`, `C` with
identical `k`, alphabet size and canonical flag, `F` arrays of matching
lengths, non-empty `last` in the middle chunk and consistent weighting,
`extend (extend A B) C` and `extend A (extend B C)` produce pointwise-equal
`(W, last, F)` arrays (merging skips the appended chunk's position 0,
appends its `W`/`last` entries and adds the `F` arrays elementwise). -/
theorem C7_extend_assoc (A B C : Chunk)
    (h1 : A.alph = B.alph) (h2 : B.alph = C.alph)
    (hk1 : A.k = B.k) (hk2 : B.k = C.k)
    (hc1 : A.canonical = B.canonical) (hc2 : B.canonical = C.canonical)
    (hlB : 1 ≤ B.last.length)
    (hFAB : A.F.length = B.F.length) (hFBC : B.F.length = C.F.length)
    (hwAB : A.weights.isEmpty = B.weights.isEmpty)
    (hwBC : B.weights.isEmpty = C.weights.isEmpty) :
    Option.map (fun c => (c.W, c.last, c.F))
        ((A.extend B).bind fun ab => ab.extend C)
      = Option.map (fun c => (c.W, c.last, c.F))
        ((B.extend C).bind fun bc => A.extend bc) := by
  by_cases hsB : B.size = 0
  · rw [extend_bzero A B h1 hk1 hc1 hsB]
    by_cases hsC : C.size = 0
    · rw [extend_bzero B C h2 hk2 hc2 hsC]
      simp only [Option.some_bind]
      rw [extend_bzero A C (h1.trans h2) (hk1.trans hk2) (hc1.trans hc2) hsC,
        extend_bzero A B h1 hk1 hc1 hsB]
    · rw [extend_azero B C h2 hk2 hc2 hsC hsB]
      simp only [Option.some_bind]
  · by_cases hsC : C.size = 0
    · rw [extend_bzero B C h2 hk2 hc2 hsC]
      simp only [Option.some_bind]
      by_cases hsA : A.size = 0
      · rw [extend_azero A B h1 hk1 hc1 hsB hsA]
        simp only [Option.some_bind]
        rw [extend_bzero B C h2 hk2 hc2 hsC]
      · obtain ⟨ab, hab, habA, habK, habC, habW, habL, habF, habwe⟩ :=
          extend_ok A B h1 hk1 hc1 hsB hsA hwAB
        rw [hab]
        simp only [Option.some_bind]
        rw [extend_bzero ab C (habA.trans (h1.trans h2))
          (habK.trans (hk1.trans hk2)) (habC.trans (hc1.trans hc2)) hsC]
    · have h2B : 2 ≤ B.W.length := by
        rw [Chunk.size] at hsB
        omega
      obtain ⟨bc, hbc, hbcA, hbcK, hbcC, hbcW, hbcL, hbcF, hbcwe⟩ :=
        extend_ok B C h2 hk2 hc2 hsC hsB hwBC
      have hbcs : bc.size ≠ 0 := by
        rw [Chunk.size, hbcW, List.length_append]
        omega
      by_cases hsA : A.size = 0
      · rw [extend_azero A B h1 hk1 hc1 hsB hsA, hbc]
        simp only [Option.some_bind]
        rw [hbc, extend_azero A bc (h1.trans hbcA.symm) (hk1.trans hbcK.symm)
          (hc1.trans hbcC.symm) hbcs hsA]
      · have h2A : 2 ≤ A.W.length := by
          rw [Chunk.size] at hsA
          omega
        obtain ⟨ab, hab, habA, habK, habC, habW, habL, habF, habwe⟩ :=
          extend_ok A B h1 hk1 hc1 hsB hsA hwAB
        have habs : ab.size ≠ 0 := by
          rw [Chunk.size, habW, List.length_append]
          omega
        obtain ⟨l, hl, hlA, hlK, hlC, hlW, hlL, hlF, hlwe⟩ :=
          extend_ok ab C (habA.trans (h1.trans h2)) (habK.trans (hk1.trans hk2))
            (habC.trans (hc1.trans hc2)) hsC habs
            (habwe.trans (hwAB.trans hwBC))
        obtain ⟨r, hr, hrA, hrK, hrC, hrW, hrL, hrF, hrwe⟩ :=
          extend_ok A bc (h1.trans hbcA.symm) (hk1.trans hbcK.symm)
            (hc1.trans hbcC.symm) (by rw [Chunk.size, hbcW] at hbcs ⊢; exact hbcs)
            hsA (hwAB.trans hbcwe.symm)
        rw [hab, hbc]
        simp only [Option.some_bind]
        rw [hl, hr]
        simp only [Option.map_some']
        refine congrArg some ?_
        refine Prod.ext ?_ (Prod.ext ?_ ?_)
        · show l.W = r.W
          rw [hlW, hrW, habW, hbcW,
            List.drop_append_of_le_length (by omega), List.append_assoc]
        · show l.last = r.last
          rw [hlL, hrL, habL, hbcL,
            List.drop_append_of_le_length hlB, List.append_assoc]
        · show l.F = r.F
          rw [hlF, hrF, habF, hbcF]
          exact addF_assoc hFAB hFBC

theorem C7_witness :
    Option.map (fun c => (c.W, c.last, c.F))
        (((Chunk.mk 4 2 false [0, 1] [false, true] [0, 0, 1, 1] []).extend
            (Chunk.mk 4 2 false [0, 2] [false, true] [0, 0, 0, 1] [])).bind
          fun ab => ab.extend (Chunk.mk 4 2 false [0, 3] [false, true] [0, 0, 0, 0] []))
      = Option.map (fun c => (c.W, c.last, c.F))
        (((Chunk.mk 4 2 false [0, 2] [false, true] [0, 0, 0, 1] []).extend
            (Chunk.mk 4 2 false [0, 3] [false, true] [0, 0, 0, 0] [])).bind
          fun bc => (Chunk.mk 4 2 false [0, 1] [false, true] [0, 0, 1, 1] []).extend bc) :=
  C7_extend_assoc
    (Chunk.mk 4 2 false [0, 1] [false, true] [0, 0, 1, 1] [])
    (Chunk.mk 4 2 false [0, 2] [false, true] [0, 0, 0, 1] [])
    (Chunk.mk 4 2 false [0, 3] [false, true] [0, 0, 0, 0] [])
    rfl rfl rfl rfl rfl rfl (by decide) rfl rfl rfl rfl

/-! ### `recover_source_dummy_nodes` (dbg_construct.cpp lines 148-229,
boss_chunk_construct.cpp lines 59-118). -/

/-- A source dummy kmer: the negation of the keep-as-is branch
`kmer[1] > 0 || (edge_label = kmer[0]) == 0`, i.e.
`kmer[1] == 0 && kmer[0] != 0`. -/
def isSrcDummy (x : Kmer) : Bool := x.getD 1 0 == 0 && !(x.getD 0 0 == 0)

/-- The redundancy scan of `dbg_construct.cpp`: walk forward over the
following kmers while `compare_suffix(kmer, kmers[j], 1)` holds, looking
for one carrying the same edge label `kmers[j][0] == edge_label`. -/
def redScan (x : Kmer) : List Kmer → Bool
  | [] => false
  | y :: r =>
    if compare_suffix x y 1 then
      if y.getD 0 0 == x.getD 0 0 then true else redScan x r
    else false

/-- First pass of `dbg_construct.cpp`'s `recover_source_dummy_nodes`:
the compacted prefix `kmers[0..cur_pos)` (non-dummies and non-redundant
source dummies, in order) paired with the appended `to_prev` kmers. -/
def dbgPass1 (k : ℕ) : List Kmer → List Kmer × List Kmer
  | [] => ([], [])
  | x :: r =>
    if isSrcDummy x then
      if redScan x r then dbgPass1 k r
      else (x :: (dbgPass1 k r).1, to_prev k x :: (dbgPass1 k r).2)
    else (x :: (dbgPass1 k r).1, (dbgPass1 k r).2)

/-- First pass of `boss_chunk_construct.cpp`'s `recover_source_dummy_nodes`:
no kmer is removed; only the appended `to_prev` kmers are collected. -/
def bossPass1 (k : ℕ) : List Kmer → List Kmer
  | [] => []
  | x :: r => if isSrcDummy x then to_prev k x :: bossPass1 k r else bossPass1 k r

/-- The loop `for (size_t c = 3; c < k + 1; ++c)`: from the sorted dummies
of one prefix length, append `to_prev` of each and run
`sort_and_remove_duplicates` on the appended range.  Returns the successive
appended ranges. -/
def dummyLevels (k : ℕ) : ℕ → List Kmer → List (List Kmer)
  | 0, _ => []
  | n + 1, d =>
    sortDedup (d.map (to_prev k))
      :: dummyLevels k n (sortDedup (d.map (to_prev k)))

/-- `recover_source_dummy_nodes` of `dbg_construct.cpp`: compact away the
redundant source dummies, append and dedup the prefix-length-2 dummies,
iterate up to prefix length `k`, then re-sort the whole array
(`ips4o::parallel::sort`, without dedup). -/
def recoverDbg (k : ℕ) (l : List Kmer) : List Kmer :=
  kmSort ((dbgPass1 k l).1 ++ sortDedup (dbgPass1 k l).2
    ++ (dummyLevels k (k - 2) (sortDedup (dbgPass1 k l).2)).flatten)

/-- `recover_source_dummy_nodes` of `boss_chunk_construct.cpp`: the same
pipeline, except that no kmer is ever removed. -/
def recoverBoss (k : ℕ) (l : List Kmer) : List Kmer :=
  kmSort (l ++ sortDedup (bossPass1 k l)
    ++ (dummyLevels k (k - 2) (sortDedup (bossPass1 k l))).flatten)

/-- The claim's redundancy test, with the comparison corrected to the one
the code performs: some other kmer of the array agrees with `x` on
positions `2 .. k` (`compare_suffix` at offset 1) and carries the same
edge label. -/
def kmRedundant (x : Kmer) (l : List Kmer) : Bool :=
  l.any fun y => !(y == x) && compare_suffix x y 1 && (y.getD 0 0 == x.getD 0 0)

theorem lexLt_append_same (p u v : List ℕ) :
    lexLt (p ++ u) (p ++ v) = lexLt u v := by
  induction p with
  | nil => rfl
  | cons a ps ih => simp [lexLt, ih]

theorem compare_suffix_symm {x y : Kmer} {m : ℕ} :
    compare_suffix x y m = compare_suffix y x m := by
  simp only [compare_suffix]
  by_cases h : x.drop (m + 1) = y.drop (m + 1)
  · rw [h]
  · rw [beq_eq_false_iff_ne.mpr h, beq_eq_false_iff_ne.mpr (Ne.symm h)]

theorem compare_suffix_trans {x y z : Kmer} {m : ℕ}
    (h₁ : compare_suffix x y m = true) (h₂ : compare_suffix y z m = true) :
    compare_suffix x z m = true := by
  simp only [compare_suffix, beq_iff_eq] at *
  exact h₁.trans h₂

/-- A source dummy has no mate below it in the order: any kmer strictly
smaller that agrees on positions `2 .. k` carries a different edge label
(the node's first character 0 is minimal, so the smaller kmer would
otherwise equal the dummy). -/
theorem srcDummy_no_earlier_mate {k : ℕ} (hk : 1 ≤ k) {x y : Kmer}
    (hx : x.length = k + 1) (hy : y.length = k + 1)
    (hdum : isSrcDummy y = true) (hlt : kLt x y)
    (hcs : compare_suffix y x 1 = true) : ¬ x.getD 0 0 = y.getD 0 0 := by
  intro hlab
  obtain ⟨a, x₁, rfl⟩ : ∃ a x₁, x = a :: x₁ := by
    cases x with
    | nil => simp at hx
    | cons a t => exact ⟨a, t, rfl⟩
  obtain ⟨b, x₂, rfl⟩ : ∃ b x₂, x₁ = b :: x₂ := by
    cases x₁ with
    | nil => simp at hx; omega
    | cons b t => exact ⟨b, t, rfl⟩
  obtain ⟨c, y₁, rfl⟩ : ∃ c y₁, y = c :: y₁ := by
    cases y with
    | nil => simp at hy
    | cons c t => exact ⟨c, t, rfl⟩
  obtain ⟨d, y₂, rfl⟩ : ∃ d y₂, y₁ = d :: y₂ := by
    cases y₁ with
    | nil => simp at hy; omega
    | cons d t => exact ⟨d, t, rfl⟩
  have htails : y₂ = x₂ := by
    simpa [compare_suffix] using hcs
  have ha : a = c := by simpa using hlab
  have hd : d = 0 := by
    simp only [isSrcDummy, Bool.and_eq_true, beq_iff_eq, List.getD_cons_succ,
      List.getD_cons_zero] at hdum
    exact hdum.1
  subst ha
  subst hd
  rw [htails] at hlt
  have hfalse : kmerLtB (a :: b :: x₂) (a :: 0 :: x₂) = false := by
    show lexLt (a :: b :: x₂).reverse (a :: 0 :: x₂).reverse = false
    rw [List.reverse_cons, List.reverse_cons, List.reverse_cons,
      List.reverse_cons, List.append_assoc, List.append_assoc,
      lexLt_append_same]
    simp [lexLt]
  have h2 : kmerLtB (a :: b :: x₂) (a :: 0 :: x₂) = true := hlt
  rw [hfalse] at h2
  exact Bool.false_ne_true h2

theorem redScan_iff {k : ℕ} (hk : 1 ≤ k) {x : Kmer} {r : List Kmer}
    (hx : x.length = k + 1) (hall : ∀ y ∈ r, y.length = k + 1)
    (hxr : ∀ y ∈ r, kLt x y) (hr : r.Pairwise kLt) :
    redScan x r = true ↔
      ∃ y ∈ r, compare_suffix x y 1 = true ∧ y.getD 0 0 = x.getD 0 0 := by
  induction r with
  | nil => simp [redScan]
  | cons z zs ih =>
    rw [redScan]
    by_cases hcs : compare_suffix x z 1 = true
    · rw [if_pos hcs]
      by_cases hlab : (z.getD 0 0 == x.getD 0 0) = true
      · rw [if_pos hlab]
        refine iff_of_true rfl ?_
        exact ⟨z, List.mem_cons_self z zs, hcs, beq_iff_eq.mp hlab⟩
      · rw [if_neg hlab]
        rw [ih (fun y hy => hall y (List.mem_cons_of_mem z hy))
          (fun y hy => hxr y (List.mem_cons_of_mem z hy))
          (List.pairwise_cons.mp hr).2]
        constructor
        · rintro ⟨y, hy, h1, h2⟩
          exact ⟨y, List.mem_cons_of_mem z hy, h1, h2⟩
        · rintro ⟨y, hy, h1, h2⟩
          rcases List.mem_cons.mp hy with rfl | hy'
          · exact absurd (beq_iff_eq.mpr h2) hlab
          · exact ⟨y, hy', h1, h2⟩
    · rw [if_neg hcs]
      refine iff_of_false (by simp) ?_
      rintro ⟨y, hy, h1, h2⟩
      rcases List.mem_cons.mp hy with rfl | hy'
      · exact hcs h1
      · have hxz : kLt x z := hxr z (List.mem_cons_self z zs)
        have hzy : kLt z y := (List.pairwise_cons.mp hr).1 y hy'
        have hyx : compare_suffix y x 1 = true := by
          rw [compare_suffix_symm]
          exact h1
        have hyz : compare_suffix y z 1 = true :=
          compare_suffix_between hk (hall y (List.mem_cons_of_mem z hy'))
            (hall z (List.mem_cons_self z zs)) hx (kLt_asymm hxz)
            (kLt_asymm hzy) hyx
        exact hcs (compare_suffix_trans h1 hyz)

/-- Prepending a strictly smaller kmer does not change the redundancy
status of a source dummy. -/
theorem kmRedundant_cons {k : ℕ} (hk : 1 ≤ k) {x y : Kmer} {r : List Kmer}
    (hx : x.length = k + 1) (hy : y.length = k + 1)
    (hdum : isSrcDummy y = true) (hlt : kLt x y) :
    kmRedundant y (x :: r) = kmRedundant y r := by
  rw [kmRedundant, List.any_cons]
  have hterm : (!(x == y) && compare_suffix y x 1
      && (x.getD 0 0 == y.getD 0 0)) = false := by
    by_cases h1 : compare_suffix y x 1 = true
    · have hne := srcDummy_no_earlier_mate hk hx hy hdum hlt h1
      rw [beq_eq_false_iff_ne.mpr hne, Bool.and_false]
    · rw [Bool.eq_false_iff.mpr h1, Bool.and_false, Bool.false_and]
  rw [hterm, Bool.false_or]
  rfl

/-- The compacted prefix of `dbg_construct.cpp`'s pass: exactly the kmers
that are not source dummies made redundant by a mate elsewhere in the
array. -/
theorem dbgPass1_kept {k : ℕ} (hk : 1 ≤ k) {l : List Kmer}
    (hlen : ∀ x ∈ l, x.length = k + 1) (hsort : l.Pairwise kLt) :
    (dbgPass1 k l).1
      = l.filter fun x => !(isSrcDummy x && kmRedundant x l) := by
  induction l with
  | nil => rfl
  | cons x r ih =>
    obtain ⟨hxr, hr⟩ := List.pairwise_cons.mp hsort
    have hlr : ∀ y ∈ r, y.length = k + 1 := fun y hy =>
      hlen y (List.mem_cons_of_mem x hy)
    have hxlen : x.length = k + 1 := hlen x (List.mem_cons_self x r)
    have hfiltereq : (r.filter fun y => !(isSrcDummy y && kmRedundant y r))
        = r.filter fun y => !(isSrcDummy y && kmRedundant y (x :: r)) := by
      apply List.filter_congr
      intro y hy
      by_cases hdum : isSrcDummy y = true
      · rw [kmRedundant_cons hk hxlen (hlr y hy) hdum (hxr y hy)]
      · rw [Bool.eq_false_iff.mpr hdum, Bool.false_and, Bool.false_and]
    rw [dbgPass1]
    by_cases hdum : isSrcDummy x = true
    · rw [if_pos hdum]
      by_cases hred : redScan x r = true
      · rw [if_pos hred]
        obtain ⟨y, hy, h1, h2⟩ := (redScan_iff hk hxlen hlr hxr hr).mp hred
        have hyx : ¬ (y = x) := Ne.symm (kLt_ne (hxr y hy))
        have hkmred : kmRedundant x (x :: r) = true := by
          rw [kmRedundant]
          refine List.any_eq_true.mpr ⟨y, List.mem_cons_of_mem x hy, ?_⟩
          rw [beq_eq_false_iff_ne.mpr hyx, h1, beq_iff_eq.mpr h2]
          rfl
        rw [List.filter_cons_of_neg (by rw [hdum, hkmred]; simp),
          ← hfiltereq]
        exact ih hlr hr
      · rw [if_neg hred]
        have hnored : kmRedundant x (x :: r) = false := by
          rw [kmRedundant, List.any_cons]
          have h1 : (!(x == x) && compare_suffix x x 1
              && (x.getD 0 0 == x.getD 0 0)) = false := by simp
          rw [h1, Bool.false_or]
          by_contra hc
          have hany : (r.any fun y => !(y == x) && compare_suffix x y 1
              && (y.getD 0 0 == x.getD 0 0)) = true := by
            cases hv : r.any fun y => !(y == x) && compare_suffix x y 1
                && (y.getD 0 0 == x.getD 0 0)
            · exact absurd hv hc
            · rfl
          obtain ⟨y, hy, hprop⟩ := List.any_eq_true.mp hany
          rw [Bool.and_eq_true, Bool.and_eq_true] at hprop
          exact hred ((redScan_iff hk hxlen hlr hxr hr).mpr
            ⟨y, hy, hprop.1.2, beq_iff_eq.mp hprop.2⟩)
        show x :: (dbgPass1 k r).1 = _
        rw [List.filter_cons_of_pos (by rw [hdum, hnored]; rfl)]
        rw [ih hlr hr, hfiltereq]
    · rw [if_neg hdum]
      show x :: (dbgPass1 k r).1 = _
      rw [List.filter_cons_of_pos
        (by rw [Bool.eq_false_iff.mpr hdum, Bool.false_and]; rfl)]
      rw [ih hlr hr, hfiltereq]

/-- Each retained source dummy, and only those, contributes its `to_prev`
predecessor to the appended range. -/
theorem dbgPass1_app (k : ℕ) (l : List Kmer) :
    (dbgPass1 k l).2
      = ((dbgPass1 k l).1.filter isSrcDummy).map (to_prev k) := by
  induction l with
  | nil => rfl
  | cons x r ih =>
    rw [dbgPass1]
    by_cases hdum : isSrcDummy x = true
    · rw [if_pos hdum]
      by_cases hred : redScan x r = true
      · rw [if_pos hred]
        exact ih
      · rw [if_neg hred]
        show to_prev k x :: (dbgPass1 k r).2
          = ((x :: (dbgPass1 k r).1).filter isSrcDummy).map (to_prev k)
        rw [List.filter_cons_of_pos hdum, List.map_cons, ih]
    · rw [if_neg hdum]
      show (dbgPass1 k r).2
        = ((x :: (dbgPass1 k r).1).filter isSrcDummy).map (to_prev k)
      rw [List.filter_cons_of_neg hdum, ih]

/-- The `boss_chunk_construct.cpp` pass appends `to_prev` of every source
dummy of the array (and removes nothing). -/
theorem bossPass1_eq (k : ℕ) (l : List Kmer) :
    bossPass1 k l = (l.filter isSrcDummy).map (to_prev k) := by
  induction l with
  | nil => rfl
  | cons x r ih =>
    rw [bossPass1]
    by_cases hdum : isSrcDummy x = true
    · rw [if_pos hdum, List.filter_cons_of_pos hdum, List.map_cons, ih]
    · rw [if_neg hdum, List.filter_cons_of_neg hdum, ih]

/-- C2: amended description of `recover_source_dummy_nodes`.  In
`dbg_construct.cpp` a source dummy is removed iff some *other* kmer of the
array agrees with it on positions 2..k (`compare_suffix` at offset 1, not
"from position 1 onward" as claimed) and carries the same edge label;
every retained source dummy (and only those) has its `to_prev` predecessor
appended.  The `boss_chunk_construct.cpp` version removes nothing and
appends `to_prev` of *every* source dummy.  Both iterate the appended
level up to prefix length `k` and end with a global re-sort. -/
theorem C2_dummy_recovery (k : ℕ) (l : List Kmer) (hk : 1 ≤ k)
    (hlen : ∀ x ∈ l, x.length = k + 1) (hsort : l.Pairwise kLt) :
    (dbgPass1 k l).1
        = (l.filter fun x => !(isSrcDummy x && kmRedundant x l))
      ∧ (dbgPass1 k l).2
        = ((dbgPass1 k l).1.filter isSrcDummy).map (to_prev k)
      ∧ bossPass1 k l = (l.filter isSrcDummy).map (to_prev k)
      ∧ (∀ x ∈ l, x ∈ recoverBoss k l)
      ∧ (recoverDbg k l).Pairwise (fun a b => kmerLeB a b = true)
      ∧ (recoverBoss k l).Pairwise (fun a b => kmerLeB a b = true) := by
  refine ⟨dbgPass1_kept hk hlen hsort, dbgPass1_app k l, bossPass1_eq k l,
    ?_, ?_, ?_⟩
  · intro x hx
    rw [recoverBoss, mem_kmSort]
    exact List.mem_append.mpr (Or.inl (List.mem_append.mpr (Or.inl hx)))
  · exact pairwise_le_kmSort _
  · exact pairwise_le_kmSort _

theorem C2_witness :
    (dbgPass1 2 [[2, 0, 1], [2, 3, 1]]).1
        = (([[2, 0, 1], [2, 3, 1]] : List Kmer).filter
            fun x => !(isSrcDummy x && kmRedundant x [[2, 0, 1], [2, 3, 1]]))
      ∧ (dbgPass1 2 [[2, 0, 1], [2, 3, 1]]).2
        = ((dbgPass1 2 [[2, 0, 1], [2, 3, 1]]).1.filter isSrcDummy).map
            (to_prev 2)
      ∧ bossPass1 2 [[2, 0, 1], [2, 3, 1]]
        = (([[2, 0, 1], [2, 3, 1]] : List Kmer).filter isSrcDummy).map
            (to_prev 2)
      ∧ (∀ x ∈ ([[2, 0, 1], [2, 3, 1]] : List Kmer),
          x ∈ recoverBoss 2 [[2, 0, 1], [2, 3, 1]])
      ∧ (recoverDbg 2 [[2, 0, 1], [2, 3, 1]]).Pairwise
          (fun a b => kmerLeB a b = true)
      ∧ (recoverBoss 2 [[2, 0, 1], [2, 3, 1]]).Pairwise
          (fun a b => kmerLeB a b = true) :=
  C2_dummy_recovery 2 [[2, 0, 1], [2, 3, 1]] (by decide) (by decide)
    (by decide)

/-- C2 counterexample to the claim as stated: in the sorted distinct array
`[[2,0,1], [2,3,1]]` (k = 2), the source dummy `[2,0,1]` has no other kmer
with identical suffix *from position 1 onward* and the same edge label, so
by the claim it should be retained and its `to_prev` appended; but
`dbg_construct.cpp` removes it (its scan compares positions 2..k only),
and the `boss_chunk_construct.cpp` version — which removes nothing —
keeps it, so the two cited implementations do not even agree. -/
theorem C2_counterexample :
    isSrcDummy [2, 0, 1] = true
      ∧ (∀ y ∈ ([[2, 0, 1], [2, 3, 1]] : List Kmer),
          y ≠ [2, 0, 1] →
            ¬ (y.drop 1 = ([2, 0, 1] : Kmer).drop 1 ∧ y.getD 0 0 = 2))
      ∧ [2, 0, 1] ∉ recoverDbg 2 [[2, 0, 1], [2, 3, 1]]
      ∧ to_prev 2 [2, 0, 1] ∉ recoverDbg 2 [[2, 0, 1], [2, 3, 1]]
      ∧ [2, 0, 1] ∈ recoverBoss 2 [[2, 0, 1], [2, 3, 1]] := by
  decide

/-! ### `KmerCollector` (dbg_construct.cpp): the shared buffer receives
appended batches of extracted kmers from the worker threads (in some
interleaving), is compacted by `sort_and_remove_duplicates` whenever
capacity is exceeded (`shrink_kmers`), and `join()` runs a final
`sort_and_remove_duplicates`. -/

/-- A buffer event: a batch of kmers appended by some extractor task, or
an intermediate `shrink_kmers` compaction. -/
inductive CEv where
  | push : List Kmer → CEv
  | compact : CEv

/-- Replay a history of buffer events. -/
def runEvents : List CEv → List Kmer → List Kmer
  | [], buf => buf
  | CEv.push c :: evs, buf => runEvents evs (buf ++ c)
  | CEv.compact :: evs, buf => runEvents evs (sortDedup buf)

/-- The buffer after `join()`: the final `sort_and_remove_duplicates`. -/
def joinResult (evs : List CEv) : List Kmer := sortDedup (runEvents evs [])

/-- All kmers pushed during a history. -/
def pushed : List CEv → List Kmer
  | [] => []
  | CEv.push c :: evs => c ++ pushed evs
  | CEv.compact :: evs => pushed evs

theorem mem_runEvents {evs : List CEv} {buf : List Kmer} {x : Kmer} :
    x ∈ runEvents evs buf ↔ x ∈ buf ∨ x ∈ pushed evs := by
  induction evs generalizing buf with
  | nil => simp [runEvents, pushed]
  | cons e evs ih =>
    cases e with
    | push c =>
      rw [runEvents, pushed, ih]
      simp [List.mem_append, or_assoc]
    | compact =>
      rw [runEvents, pushed, ih, mem_sortDedup]

/-- C4: after `join()` the collector's buffer is strictly sorted and
duplicate-free, its members are exactly the pushed kmers, and the result
depends only on the *set* of pushed kmers — not on batching, interleaving
or intermediate compactions. -/
theorem C4_collector_canonical (evs₁ evs₂ : List CEv)
    (h : ∀ x : Kmer, x ∈ pushed evs₁ ↔ x ∈ pushed evs₂) :
    (joinResult evs₁).Pairwise kLt
      ∧ (∀ x : Kmer, x ∈ joinResult evs₁ ↔ x ∈ pushed evs₁)
      ∧ joinResult evs₁ = joinResult evs₂ := by
  refine ⟨pairwise_lt_sortDedup _, ?_, ?_⟩
  · intro x
    rw [joinResult, mem_sortDedup, mem_runEvents]
    simp
  · rw [joinResult, joinResult]
    apply sortDedup_eq_of_mem_iff
    intro x
    rw [mem_runEvents, mem_runEvents]
    simpa using h x

theorem C4_witness :
    (joinResult [CEv.push [[0, 1], [1, 2]], CEv.compact,
        CEv.push [[1, 2]]]).Pairwise kLt
      ∧ (∀ x : Kmer,
          x ∈ joinResult [CEv.push [[0, 1], [1, 2]], CEv.compact,
              CEv.push [[1, 2]]]
            ↔ x ∈ pushed [CEv.push [[0, 1], [1, 2]], CEv.compact,
                CEv.push [[1, 2]]])
      ∧ joinResult [CEv.push [[0, 1], [1, 2]], CEv.compact,
            CEv.push [[1, 2]]]
          = joinResult [CEv.push [[1, 2]], CEv.push [[0, 1]]] :=
  C4_collector_canonical
    [CEv.push [[0, 1], [1, 2]], CEv.compact, CEv.push [[1, 2]]]
    [CEv.push [[1, 2]], CEv.push [[0, 1]]]
    (by
      intro x
      show x ∈ ([[0, 1], [1, 2], [1, 2]] : List Kmer)
        ↔ x ∈ ([[1, 2], [0, 1]] : List Kmer)
      simp only [List.mem_cons, List.not_mem_nil, or_false]
      tauto)

/-! ### The Bloom-filter label sets (`dbg_bloom_annotator.cpp`,
`add_sequence` lines 51-77 and the kmer lookup, lines 96-100).  The filter
classes themselves live in a header that is not part of this repository
snapshot; following spec §4.6, a column is a bit array with `h` hash
functions, an insert sets the `h` bits of the kmer modulo the column
size, and a lookup tests them.  The hash family is an arbitrary parameter
`hs`, sequences are already encoded, and `bloom_size_factor` is taken as
a natural number. -/

/-- The (k+1)-character windows of an encoded sequence. -/
def windows (w : ℕ) : List ℕ → List (List ℕ)
  | [] => []
  | c :: rest =>
    if rest.length + 1 < w then [] else (c :: rest).take w :: windows w rest

/-- Modelled from the spec: a Bloom insert sets, for every hash function,
the bit at the hash value modulo the column size. -/
def bloomInsert (hs : List (List ℕ → ℕ)) (km : List ℕ) (b : List Bool) :
    List Bool :=
  hs.foldl (fun acc f => acc.set (f km % acc.length) true) b

/-- Modelled from the spec: a Bloom lookup tests all `h` bits. -/
def bloomHas (hs : List (List ℕ → ℕ)) (km : List ℕ) (b : List Bool) : Bool :=
  hs.all fun f => b.getD (f km % b.length) false

/-- `annotation.resize(column + 1)`, filling with unsized columns. -/
def resizeCols (c : ℕ) (σ : List (List Bool)) : List (List Bool) :=
  σ ++ List.replicate (c + 1 - σ.length) []

/-- Size a column at its first insert
(`bloom_size_factor_ * (seq.size() - k) + 1`). -/
def sizedCol (m : ℕ) (col : List Bool) : List Bool :=
  if col.length = 0 then List.replicate m false else col

/-- Insert every (k+1)-mer window of a sequence into one column. -/
def insertSeq (hs : List (List ℕ → ℕ)) (w : ℕ) (s : List ℕ) (b : List Bool) :
    List Bool :=
  (windows w s).foldl (fun b km => bloomInsert hs km b) b

/-- `BloomAnnotator::add_sequence`: skip short sequences, resize the
column list, size the column at first insert, then hash and set every
window. -/
def add_sequence (hs : List (List ℕ → ℕ)) (K factor : ℕ) (s : List ℕ)
    (c : ℕ) (σ : List (List Bool)) : List (List Bool) :=
  if s.length < K + 1 then σ
  else (resizeCols c σ).set c
    (insertSeq hs (K + 1) s
      (sizedCol (factor * (s.length - K) + 1) ((resizeCols c σ).getD c [])))

/-- A batch of subsequent `add_sequence` calls. -/
def addAll (hs : List (List ℕ → ℕ)) (K factor : ℕ)
    (ps : List (List ℕ × ℕ)) (σ : List (List Bool)) : List (List Bool) :=
  ps.foldl (fun σ p => add_sequence hs K factor p.1 p.2 σ) σ

/-- The lookup of lines 96-100: one Bloom test per column. -/
def annot_from_kmer (hs : List (List ℕ → ℕ)) (km : List ℕ)
    (σ : List (List Bool)) : List Bool :=
  σ.map fun b => bloomHas hs km b

theorem getD_setg {α : Type} {F : List α} {i b : ℕ} {v d : α}
    (hi : i < F.length) :
    (F.set i v).getD b d = if i = b then v else F.getD b d := by
  by_cases hb : b < F.length
  · rw [List.getD_eq_getElem _ _ (by simpa using hb), List.getElem_set]
    by_cases hib : i = b
    · rw [if_pos hib, if_pos hib]
    · rw [if_neg hib, if_neg hib, List.getD_eq_getElem _ _ hb]
  · rw [if_neg (by omega)]
    rw [List.getD_eq_getElem?_getD, List.getD_eq_getElem?_getD,
      List.getElem?_eq_none (by simpa using Nat.le_of_not_lt hb),
      List.getElem?_eq_none (by omega)]

theorem foldIns_length (hs : List (List ℕ → ℕ)) (km : List ℕ) (b : List Bool) :
    (hs.foldl (fun acc f => acc.set (f km % acc.length) true) b).length
      = b.length := by
  induction hs generalizing b with
  | nil => rfl
  | cons f fs ih => rw [List.foldl_cons, ih, List.length_set]

theorem foldIns_mono {hs : List (List ℕ → ℕ)} {km : List ℕ} {b : List Bool}
    {i : ℕ} (hm : b.length ≠ 0) (h : b.getD i false = true) :
    (hs.foldl (fun acc f => acc.set (f km % acc.length) true) b).getD i false
      = true := by
  induction hs generalizing b with
  | nil => exact h
  | cons f fs ih =>
    rw [List.foldl_cons]
    refine ih (by rw [List.length_set]; exact hm) ?_
    rw [getD_setg (Nat.mod_lt _ (Nat.pos_of_ne_zero hm))]
    by_cases hji : f km % b.length = i
    · rw [if_pos hji]
    · rw [if_neg hji]
      exact h

theorem foldIns_sets {hs : List (List ℕ → ℕ)} {km : List ℕ} {b : List Bool}
    {f : List ℕ → ℕ} (hf : f ∈ hs) (hm : b.length ≠ 0) :
    (hs.foldl (fun acc g => acc.set (g km % acc.length) true) b).getD
      (f km % b.length) false = true := by
  induction hs generalizing b with
  | nil => exact absurd hf (List.not_mem_nil f)
  | cons g gs ih =>
    rw [List.foldl_cons]
    rcases List.mem_cons.mp hf with rfl | hf'
    · refine foldIns_mono (by rw [List.length_set]; exact hm) ?_
      rw [getD_setg (Nat.mod_lt _ (Nat.pos_of_ne_zero hm)), if_pos rfl]
    · have := ih hf' (b := b.set (g km % b.length) true)
        (by rw [List.length_set]; exact hm)
      rwa [List.length_set] at this

theorem bloomHas_bloomInsert {hs : List (List ℕ → ℕ)} {km : List ℕ}
    {b : List Bool} (hm : b.length ≠ 0) :
    bloomHas hs km (bloomInsert hs km b) = true := by
  rw [bloomHas, List.all_eq_true]
  intro f hf
  rw [bloomInsert, foldIns_length]
  exact foldIns_sets hf hm

theorem bloomHas_mono {hs : List (List ℕ → ℕ)} {km : List ℕ}
    {b b' : List Bool} (hlen : b.length = b'.length)
    (hbit : ∀ i, b.getD i false = true → b'.getD i false = true)
    (h : bloomHas hs km b = true) : bloomHas hs km b' = true := by
  rw [bloomHas, List.all_eq_true] at h ⊢
  intro f hf
  rw [← hlen]
  exact hbit _ (h f hf)

theorem foldSeq_length (hs : List (List ℕ → ℕ)) (ws : List (List ℕ))
    (b : List Bool) :
    (ws.foldl (fun b km => bloomInsert hs km b) b).length = b.length := by
  induction ws generalizing b with
  | nil => rfl
  | cons w ws ih => rw [List.foldl_cons, ih, bloomInsert, foldIns_length]

theorem foldSeq_mono {hs : List (List ℕ → ℕ)} {ws : List (List ℕ)}
    {b : List Bool} {i : ℕ} (hm : b.length ≠ 0) (h : b.getD i false = true) :
    (ws.foldl (fun b km => bloomInsert hs km b) b).getD i false = true := by
  induction ws generalizing b with
  | nil => exact h
  | cons w ws ih =>
    rw [List.foldl_cons]
    refine ih (by rw [bloomInsert, foldIns_length]; exact hm) ?_
    exact foldIns_mono hm h

theorem foldSeq_has {hs : List (List ℕ → ℕ)} {ws : List (List ℕ)}
    {km : List ℕ} {b : List Bool} (hkm : km ∈ ws) (hm : b.length ≠ 0) :
    bloomHas hs km (ws.foldl (fun b km => bloomInsert hs km b) b) = true := by
  induction ws generalizing b with
  | nil => exact absurd hkm (List.not_mem_nil km)
  | cons w ws ih =>
    rw [List.foldl_cons]
    rcases List.mem_cons.mp hkm with rfl | hkm'
    · have hm' : (bloomInsert hs km b).length ≠ 0 := by
        rw [bloomInsert, foldIns_length]
        exact hm
      refine bloomHas_mono (foldSeq_length hs ws (bloomInsert hs km b)).symm
        (fun i hi => foldSeq_mono hm' hi) (bloomHas_bloomInsert hm)
    · exact ih hkm' (by rw [bloomInsert, foldIns_length]; exact hm)

theorem lt_length_resizeCols (c : ℕ) (σ : List (List Bool)) :
    c < (resizeCols c σ).length := by
  rw [resizeCols, List.length_append, List.length_replicate]
  omega

theorem resizeCols_getD (c : ℕ) (σ : List (List Bool)) (j : ℕ) :
    (resizeCols c σ).getD j [] = σ.getD j [] := by
  rw [resizeCols]
  by_cases hj : j < σ.length
  · rw [List.getD_eq_getElem?_getD, List.getD_eq_getElem?_getD,
      List.getElem?_append, if_pos hj]
  · rw [List.getD_eq_getElem?_getD, List.getD_eq_getElem?_getD,
      List.getElem?_append, if_neg hj,
      List.getElem?_replicate,
      List.getElem?_eq_none (Nat.le_of_not_lt hj)]
    by_cases h2 : j - σ.length < c + 1 - σ.length
    · rw [if_pos h2]
      rfl
    · rw [if_neg h2]

/-- One `add_sequence` call, column by column. -/
theorem add_sequence_getD (hs : List (List ℕ → ℕ)) (K factor : ℕ)
    (s : List ℕ) (c : ℕ) (σ : List (List Bool)) (j : ℕ) :
    (add_sequence hs K factor s c σ).getD j []
      = if s.length < K + 1 then σ.getD j []
        else if c = j then
          insertSeq hs (K + 1) s
            (sizedCol (factor * (s.length - K) + 1) (σ.getD c []))
        else σ.getD j [] := by
  rw [add_sequence]
  by_cases hshort : s.length < K + 1
  · rw [if_pos hshort, if_pos hshort]
  · rw [if_neg hshort, if_neg hshort,
      getD_setg (lt_length_resizeCols c σ), resizeCols_getD]
    rcases eq_or_ne c j with rfl | hne
    · rw [if_pos rfl, if_pos rfl]
    · rw [if_neg hne, if_neg hne, resizeCols_getD]

/-- Once a column is sized, any later `add_sequence` call keeps its size
and never clears a bit. -/
theorem add_sequence_col_mono (hs : List (List ℕ → ℕ)) (K factor : ℕ)
    (s : List ℕ) (c : ℕ) (σ : List (List Bool)) (j : ℕ)
    (hne0 : (σ.getD j []).length ≠ 0) :
    ((add_sequence hs K factor s c σ).getD j []).length
        = (σ.getD j []).length
      ∧ ∀ i, (σ.getD j []).getD i false = true →
          ((add_sequence hs K factor s c σ).getD j []).getD i false = true := by
  rw [add_sequence_getD]
  by_cases hshort : s.length < K + 1
  · rw [if_pos hshort]
    exact ⟨rfl, fun i hi => hi⟩
  · rw [if_neg hshort]
    rcases eq_or_ne c j with rfl | hne
    · rw [if_pos rfl]
      rw [insertSeq, sizedCol, if_neg hne0]
      exact ⟨foldSeq_length hs _ _, fun i hi => foldSeq_mono hne0 hi⟩
    · rw [if_neg hne]
      exact ⟨rfl, fun i hi => hi⟩

/-- The batch version of the same invariant, including the Bloom test of
a fixed kmer. -/
theorem addAll_inv (hs : List (List ℕ → ℕ)) (K factor : ℕ)
    (ps : List (List ℕ × ℕ)) (σ : List (List Bool)) (j : ℕ) (km : List ℕ)
    (h : (σ.getD j []).length ≠ 0 ∧ bloomHas hs km (σ.getD j []) = true) :
    ((addAll hs K factor ps σ).getD j []).length ≠ 0
      ∧ bloomHas hs km ((addAll hs K factor ps σ).getD j []) = true := by
  induction ps generalizing σ with
  | nil => exact h
  | cons p ps ih =>
    rw [addAll, List.foldl_cons]
    refine ih _ ?_
    obtain ⟨hlen, hbit⟩ := add_sequence_col_mono hs K factor p.1 p.2 σ j h.1
    exact ⟨by rw [hlen]; exact h.1,
      bloomHas_mono hlen.symm hbit h.2⟩

/-- The first insert of a sequence makes every one of its windows test
positive in its column. -/
theorem add_sequence_self (hs : List (List ℕ → ℕ)) (K factor : ℕ)
    (s : List ℕ) (c : ℕ) (σ : List (List Bool)) (km : List ℕ)
    (hlen : K + 1 ≤ s.length) (hkm : km ∈ windows (K + 1) s) :
    ((add_sequence hs K factor s c σ).getD c []).length ≠ 0
      ∧ bloomHas hs km ((add_sequence hs K factor s c σ).getD c []) = true := by
  rw [add_sequence_getD, if_neg (Nat.not_lt.mpr hlen), if_pos rfl]
  have hcol : (sizedCol (factor * (s.length - K) + 1) (σ.getD c [])).length
      ≠ 0 := by
    rw [sizedCol]
    by_cases h0 : (σ.getD c []).length = 0
    · rw [if_pos h0, List.length_replicate]
      omega
    · rw [if_neg h0]
      exact h0
  refine ⟨?_, foldSeq_has hkm hcol⟩
  rw [insertSeq, foldSeq_length]
  exact hcol

/-- C8: the Bloom label sets have no false negatives.  For every sequence
inserted into column `c` and every (k+1)-mer window of that (encoded)
sequence, a lookup of that kmer — after the insert and after any batch of
further `add_sequence` calls — returns a bit array in which bit `c` is
set. -/
theorem C8_bloom_no_false_negatives (hs : List (List ℕ → ℕ))
    (K factor : ℕ) (s : List ℕ) (c : ℕ) (σ : List (List Bool))
    (ps : List (List ℕ × ℕ)) (km : List ℕ)
    (hlen : K + 1 ≤ s.length) (hkm : km ∈ windows (K + 1) s) :
    (annot_from_kmer hs km
        (addAll hs K factor ps (add_sequence hs K factor s c σ))).getD c false
      = true := by
  obtain ⟨hne0, hhas⟩ := addAll_inv hs K factor ps
    (add_sequence hs K factor s c σ) c km
    (add_sequence_self hs K factor s c σ km hlen hkm)
  have hc : c < (addAll hs K factor ps (add_sequence hs K factor s c σ)).length := by
    by_contra hge
    rw [List.getD_eq_getElem?_getD,
      List.getElem?_eq_none (Nat.le_of_not_lt hge)] at hne0
    exact hne0 rfl
  rw [annot_from_kmer, List.getD_eq_getElem _ _ (by simpa using hc),
    List.getElem_map]
  rw [List.getD_eq_getElem _ _ hc] at hhas
  exact hhas

theorem C8_witness :
    (annot_from_kmer [fun km => km.sum] [1, 2]
        (addAll [fun km => km.sum] 1 1 [([2, 5, 7], 1)]
          (add_sequence [fun km => km.sum] 1 1 [1, 2, 3] 0 []))).getD 0 false
      = true :=
  C8_bloom_no_false_negatives [fun km => km.sum] 1 1 [1, 2, 3] 0 []
    [([2, 5, 7], 1)] [1, 2] (by decide) (by decide)

/-! ### The corrector (`BloomAnnotator::get_annotation_corrected`,
dbg_bloom_annotator.cpp lines 108-218).  The graph interface
(`DeBruijnGraphWrapper`) and the hashers live in headers that are not part
of this repository snapshot; they are abstracted as an oracle of opaque
total functions, following the spec interfaces. -/

/-- `annotate::popcount` on one machine word, by fuel-bounded binary
recursion (total: the fuel `n` always suffices). -/
def popcGo : ℕ → ℕ → ℕ
  | 0, _ => 0
  | fuel + 1, n => if n = 0 then 0 else n % 2 + popcGo fuel (n / 2)

/-- Number of set bits of one word. -/
def popc (n : ℕ) : ℕ := popcGo n n

/-- `annotate::popcount` over a packed bit vector. -/
def popcountV (v : List ℕ) : ℕ := (v.map popc).sum

/-- `annotate::merge_and`: the wordwise bitwise AND. -/
def merge_and (a b : List ℕ) : List ℕ := List.zipWith (· &&& ·) a b

/-- Successive intersections, oldest first. -/
def landFold (raw : List ℕ) (gs : List (List ℕ)) : List ℕ :=
  gs.foldl merge_and raw

/-- `a` is a wordwise bitwise subset of `b`. -/
def vecSubset (a b : List ℕ) : Prop :=
  ∀ w, a.getD w 0 &&& b.getD w 0 = a.getD w 0

theorem popcGo_congr : ∀ {f g n : ℕ}, n ≤ f → n ≤ g →
    popcGo f n = popcGo g n := by
  intro f
  induction f with
  | zero =>
    intro g n hf hg
    have : n = 0 := Nat.le_zero.mp hf
    subst this
    cases g with
    | zero => rfl
    | succ g => rw [popcGo, popcGo, if_pos rfl]
  | succ f ih =>
    intro g n hf hg
    by_cases h0 : n = 0
    · subst h0
      cases g with
      | zero => rw [popcGo, popcGo, if_pos rfl]
      | succ g => rw [popcGo, popcGo, if_pos rfl, if_pos rfl]
    · cases g with
      | zero => omega
      | succ g =>
        rw [popcGo, popcGo, if_neg h0, if_neg h0]
        have hn2 : n / 2 ≤ f := by omega
        have hn2' : n / 2 ≤ g := by omega
        rw [ih hn2 hn2']

theorem popc_rec {n : ℕ} (h : n ≠ 0) : popc n = n % 2 + popc (n / 2) := by
  rw [popc]
  cases hn : n with
  | zero => exact absurd hn h
  | succ m =>
    rw [popcGo, if_neg (by omega)]
    rw [popc]
    have h1 : (m + 1) / 2 ≤ m := by omega
    rw [popcGo_congr h1 (Nat.le_refl _)]

theorem popc_le_of_testBit {a b : ℕ}
    (h : ∀ i, a.testBit i = true → b.testBit i = true) : popc a ≤ popc b := by
  induction a using Nat.strong_induction_on generalizing b with
  | _ a ih =>
    by_cases ha : a = 0
    · subst ha
      exact Nat.zero_le _
    · by_cases hb : b = 0
      · subst hb
        have : a = 0 := by
          apply Nat.eq_of_testBit_eq
          intro i
          rw [Nat.zero_testBit]
          cases hbit : a.testBit i
          · rfl
          · have := h i hbit
            rw [Nat.zero_testBit] at this
            exact this.symm
        exact absurd this ha
      · rw [popc_rec ha, popc_rec hb]
        have hhead : a % 2 ≤ b % 2 := by
          rcases Nat.mod_two_eq_zero_or_one a with h2 | h2
          · omega
          · have hbit : a.testBit 0 = true := by
              simp [Nat.testBit_zero, h2]
            have hb1 : b % 2 = 1 := by
              have := h 0 hbit
              rw [Nat.testBit_zero] at this
              exact of_decide_eq_true this
            omega
        refine Nat.add_le_add hhead (ih (a / 2) (by omega) ?_)
        intro i hbit
        have h1 : a.testBit (i + 1) = true := by
          rw [Nat.testBit_succ]
          exact hbit
        have := h (i + 1) h1
        rw [Nat.testBit_succ] at this
        exact this

theorem land_self_left (a b : ℕ) : ((a &&& b) &&& a) = a &&& b := by
  apply Nat.eq_of_testBit_eq
  intro i
  simp only [Nat.testBit_land]
  cases a.testBit i <;> cases b.testBit i <;> rfl

theorem land_trans {a b c : ℕ} (hab : a &&& b = a)
    (hbc : b &&& c = b) : a &&& c = a := by
  calc a &&& c = (a &&& b) &&& c := by rw [hab]
    _ = a &&& (b &&& c) := Nat.land_assoc a b c
    _ = a &&& b := by rw [hbc]
    _ = a := hab

theorem popc_land_le (a b : ℕ) : popc (a &&& b) ≤ popc a := by
  apply popc_le_of_testBit
  intro i h
  rw [Nat.testBit_land, Bool.and_eq_true] at h
  exact h.1

theorem merge_and_getD (a b : List ℕ) (w : ℕ) :
    (merge_and a b).getD w 0 = a.getD w 0 &&& b.getD w 0 := by
  induction a generalizing b w with
  | nil => simp [merge_and, Nat.zero_and]
  | cons x xs ih =>
    cases b with
    | nil => simp [merge_and, Nat.and_zero]
    | cons y ys =>
      cases w with
      | zero => simp [merge_and]
      | succ w =>
        simp only [merge_and, List.zipWith_cons_cons, List.getD_cons_succ]
        exact ih ys w

theorem vecSubset_refl (a : List ℕ) : vecSubset a a := fun w => Nat.and_self _

theorem vecSubset_trans {a b c : List ℕ} (hab : vecSubset a b)
    (hbc : vecSubset b c) : vecSubset a c := fun w =>
  land_trans (hab w) (hbc w)

theorem vecSubset_merge_left (a b : List ℕ) : vecSubset (merge_and a b) a := by
  intro w
  rw [merge_and_getD]
  exact land_self_left _ _

theorem vecSubset_landFold (raw : List ℕ) (gs : List (List ℕ)) :
    vecSubset (landFold raw gs) raw := by
  induction gs generalizing raw with
  | nil => exact vecSubset_refl raw
  | cons g gs ih =>
    rw [landFold, List.foldl_cons]
    exact vecSubset_trans (ih (merge_and raw g)) (vecSubset_merge_left raw g)

theorem popcountV_merge_le (a b : List ℕ) :
    popcountV (merge_and a b) ≤ popcountV a := by
  induction a generalizing b with
  | nil => simp [merge_and, popcountV]
  | cons x xs ih =>
    cases b with
    | nil => simp [merge_and, popcountV]
    | cons y ys =>
      simp only [merge_and, List.zipWith_cons_cons, popcountV, List.map_cons,
        List.sum_cons]
      exact Nat.add_le_add (popc_land_le x y) (ih ys)

theorem popcountV_landFold_le (raw : List ℕ) (gs : List (List ℕ)) :
    popcountV (landFold raw gs) ≤ popcountV raw := by
  induction gs generalizing raw with
  | nil => exact Nat.le_refl _
  | cons g gs ih =>
    rw [landFold, List.foldl_cons]
    exact Nat.le_trans (ih (merge_and raw g)) (popcountV_merge_le raw g)

/-- Every bit set in the base and in all the intersected vectors survives
the whole intersection chain. -/
theorem vecSubset_landFold_of_all {ex raw : List ℕ} {gs : List (List ℕ)}
    (hraw : vecSubset ex raw) (hall : ∀ g ∈ gs, vecSubset ex g) :
    vecSubset ex (landFold raw gs) := by
  induction gs generalizing raw with
  | nil => exact hraw
  | cons g gs ih =>
    rw [landFold, List.foldl_cons]
    refine ih ?_ (fun g' hg' => hall g' (List.mem_cons_of_mem g hg'))
    intro w
    rw [merge_and_getD, ← Nat.land_assoc, hraw w,
      hall g (List.mem_cons_self g gs) w]

/-- Modelled from the spec: the graph/hasher interface used by the
corrector, as opaque total functions.  `hasherInit` is
`hasher_from_kmer`, `hannot` is the raw Bloom lookup of a hasher state
(`annotation_from_hasher`), `hupdate`/`hrevupdate` are
`update`/`reverse_update`, and `K` is `get_k()`. -/
structure CorrOracle where
  K : ℕ
  kmer_from_index : ℕ → List ℕ
  hasherInit : List ℕ → ℕ
  hupdate : ℕ → ℕ → ℕ
  hrevupdate : ℕ → ℕ → ℕ
  hannot : ℕ → List ℕ
  is_dummy_edge : List ℕ → Bool
  is_dummy_label : ℕ → Bool
  next_edge : ℕ → ℕ → ℕ
  prev_edge : ℕ → ℕ
  get_edge_label : ℕ → ℕ
  has_only_out : ℕ → Bool
  has_only_in : ℕ → Bool

/-- State of the forward walk. -/
structure FwdSt where
  j : ℕ
  cur_edge : ℕ
  hasher : ℕ
  curannot : List ℕ
  pcount : ℕ
  path : ℕ

/-- `j = next_edge(j, cur_edge); cur_edge = get_edge_label(j)` and the
`path++` of the loop condition. -/
def fwdAdvance (G : CorrOracle) (st : FwdSt) : FwdSt :=
  { st with
    j := G.next_edge st.j st.cur_edge,
    cur_edge := G.get_edge_label (G.next_edge st.j st.cur_edge),
    path := st.path + 1 }

/-- `hasher.update(cur_edge)` for the step just advanced to. -/
def fwdHasher (G : CorrOracle) (st : FwdSt) : ℕ :=
  G.hupdate st.hasher (G.get_edge_label (G.next_edge st.j st.cur_edge))

/-- `nextannot = merge_and(curannot, annotation_from_hasher(hasher))`. -/
def fwdNa (G : CorrOracle) (st : FwdSt) : List ℕ :=
  merge_and st.curannot (G.hannot (fwdHasher G st))

/-- The forward loop (`while (path++ < path_cutoff)`), with explicit fuel
and a ghost list of the intersected neighbor vectors.  `none` is fuel
exhaustion; with enough fuel it never occurs. -/
def fwdLoop (G : CorrOracle) (cutoff : ℕ) :
    ℕ → FwdSt → List (List ℕ) → Option (FwdSt × List (List ℕ))
  | 0, _, _ => none
  | fuel + 1, st, gs =>
    if cutoff ≤ st.path then some (st, gs)
    else if G.is_dummy_label (G.get_edge_label (G.next_edge st.j st.cur_edge))
        || !G.has_only_out (G.next_edge st.j st.cur_edge) then
      some (fwdAdvance G st, gs)
    else if popcountV (fwdNa G st) = 0 then
      some ({ fwdAdvance G st with hasher := fwdHasher G st }, gs)
    else if popcountV (fwdNa G st) < st.pcount then
      fwdLoop G cutoff fuel
        { fwdAdvance G st with
            hasher := fwdHasher G st,
            curannot := fwdNa G st,
            pcount := popcountV (fwdNa G st),
            path := 0 }
        (gs ++ [G.hannot (fwdHasher G st)])
    else
      fwdLoop G cutoff fuel
        { fwdAdvance G st with hasher := fwdHasher G st } gs

/-- State of the backward walk: the rotating window `indices` of the last
`k + 1` edge indices, the position `back` of the front edge, and the rest
as in the forward walk. -/
structure BwdSt where
  inds : List ℕ
  back : ℕ
  hasher : ℕ
  curannot : List ℕ
  pcount : ℕ
  path : ℕ

/-- One rotation of the `indices` window:
`indices[(back + 1) % size] = prev_edge(indices[back]);
back = (back + 1) % size`, with the `path++` of the loop condition. -/
def bwdRotate (G : CorrOracle) (st : BwdSt) : BwdSt :=
  { st with
    inds := st.inds.set ((st.back + 1) % st.inds.length)
      (G.prev_edge (st.inds.getD st.back 0)),
    back := (st.back + 1) % st.inds.length,
    path := st.path + 1 }

/-- `cur_first = get_edge_label(indices[back])` after the rotation. -/
def bwdFirst (G : CorrOracle) (st : BwdSt) : ℕ :=
  G.get_edge_label ((bwdRotate G st).inds.getD (bwdRotate G st).back 0)

/-- `back_hasher.reverse_update(cur_first)`. -/
def bwdHasher (G : CorrOracle) (st : BwdSt) : ℕ :=
  G.hrevupdate st.hasher (bwdFirst G st)

/-- `nextannot` of the backward step. -/
def bwdNa (G : CorrOracle) (st : BwdSt) : List ℕ :=
  merge_and st.curannot (G.hannot (bwdHasher G st))

/-- The backward loop
(`while (has_the_only_incoming_edge(...) && path++ < path_cutoff)`). -/
def bwdLoop (G : CorrOracle) (cutoff : ℕ) :
    ℕ → BwdSt → List (List ℕ) → Option (BwdSt × List (List ℕ))
  | 0, _, _ => none
  | fuel + 1, st, gs =>
    if !G.has_only_in (st.inds.getD ((st.back + 1) % st.inds.length) 0) then
      some (st, gs)
    else if cutoff ≤ st.path then some (st, gs)
    else if G.is_dummy_label (bwdFirst G st) then some (bwdRotate G st, gs)
    else if popcountV (bwdNa G st) = 0 then
      some ({ bwdRotate G st with hasher := bwdHasher G st }, gs)
    else if popcountV (bwdNa G st) < st.pcount then
      bwdLoop G cutoff fuel
        { bwdRotate G st with
            hasher := bwdHasher G st,
            curannot := bwdNa G st,
            pcount := popcountV (bwdNa G st),
            path := 0 }
        (gs ++ [G.hannot (bwdHasher G st)])
    else
      bwdLoop G cutoff fuel
        { bwdRotate G st with hasher := bwdHasher G st } gs

/-- `prev_edge` iterated. -/
def prevIter (G : CorrOracle) (j : ℕ) : ℕ → ℕ
  | 0 => j
  | m + 1 => G.prev_edge (prevIter G j m)

/-- Fuel that dominates the loops' termination measure
`pcount * (cutoff + 1) + (cutoff - path)` at `path = 0`. -/
def corrFuel (pc cutoff : ℕ) : ℕ := pc * (cutoff + 1) + cutoff + 1

/-- The forward walk's initial state. -/
def fwdInit (G : CorrOracle) (i : ℕ) : FwdSt :=
  { j := i,
    cur_edge := (G.kmer_from_index i).getD
      ((G.kmer_from_index i).length - 1) 0,
    hasher := G.hasherInit (G.kmer_from_index i),
    curannot := G.hannot (G.hasherInit (G.kmer_from_index i)),
    pcount := popcountV (G.hannot (G.hasherInit (G.kmer_from_index i))),
    path := 0 }

/-- The backward walk's initial state (`indices[m] = prev_edge^m(i)`,
`back = k`), continuing from the forward walk's result. -/
def bwdInit (G : CorrOracle) (i : ℕ) (st1 : FwdSt) : BwdSt :=
  { inds := (List.range (G.K + 1)).map (prevIter G i),
    back := G.K,
    hasher := G.hasherInit (G.kmer_from_index i),
    curannot := st1.curannot,
    pcount := st1.pcount,
    path := 0 }

/-- `BloomAnnotator::get_annotation_corrected`: raw lookup, the dummy-edge
and zero-popcount early returns, then the forward and backward corrections.
The `none` fallbacks are unreachable (C9). -/
def get_annotation_corrected (G : CorrOracle) (i cutoff : ℕ) : List ℕ :=
  if G.is_dummy_edge (G.kmer_from_index i) then
    List.replicate (G.hannot (G.hasherInit (G.kmer_from_index i))).length 0
  else if popcountV (G.hannot (G.hasherInit (G.kmer_from_index i))) = 0 then
    G.hannot (G.hasherInit (G.kmer_from_index i))
  else
    match fwdLoop G cutoff
        (corrFuel (popcountV (G.hannot (G.hasherInit (G.kmer_from_index i))))
          cutoff)
        (fwdInit G i) [] with
    | none => G.hannot (G.hasherInit (G.kmer_from_index i))
    | some (st1, gs1) =>
      match bwdLoop G cutoff (corrFuel st1.pcount cutoff)
          (bwdInit G i st1) gs1 with
      | none => st1.curannot
      | some (st2, _) => st2.curannot

/-- With fuel exceeding `pcount * (cutoff + 1) + (cutoff - path)`, the
forward loop reaches one of its return points. -/
theorem fwdLoop_some (G : CorrOracle) (cutoff : ℕ) :
    ∀ fuel (st : FwdSt) (gs : List (List ℕ)),
      st.pcount * (cutoff + 1) + (cutoff - st.path) < fuel →
      (fwdLoop G cutoff fuel st gs).isSome = true := by
  intro fuel
  induction fuel with
  | zero =>
    intro st gs h
    omega
  | succ fuel ih =>
    intro st gs h
    rw [fwdLoop]
    by_cases h1 : cutoff ≤ st.path
    · rw [if_pos h1]
      rfl
    · rw [if_neg h1]
      by_cases h2 : (G.is_dummy_label (G.get_edge_label
          (G.next_edge st.j st.cur_edge))
          || !G.has_only_out (G.next_edge st.j st.cur_edge)) = true
      · rw [if_pos h2]
        rfl
      · rw [if_neg h2]
        by_cases h3 : popcountV (fwdNa G st) = 0
        · rw [if_pos h3]
          rfl
        · rw [if_neg h3]
          by_cases h4 : popcountV (fwdNa G st) < st.pcount
          · rw [if_pos h4]
            refine ih _ _ ?_
            show popcountV (fwdNa G st) * (cutoff + 1) + cutoff < fuel
            have hmul := Nat.mul_le_mul_right (cutoff + 1)
              (show popcountV (fwdNa G st) + 1 ≤ st.pcount from h4)
            have hexp : (popcountV (fwdNa G st) + 1) * (cutoff + 1)
                = popcountV (fwdNa G st) * (cutoff + 1) + (cutoff + 1) := by
              ring
            omega
          · rw [if_neg h4]
            refine ih _ _ ?_
            show st.pcount * (cutoff + 1) + (cutoff - (st.path + 1)) < fuel
            omega

/-- With fuel exceeding `pcount * (cutoff + 1) + (cutoff - path)`, the
backward loop reaches one of its return points. -/
theorem bwdLoop_some (G : CorrOracle) (cutoff : ℕ) :
    ∀ fuel (st : BwdSt) (gs : List (List ℕ)),
      st.pcount * (cutoff + 1) + (cutoff - st.path) < fuel →
      (bwdLoop G cutoff fuel st gs).isSome = true := by
  intro fuel
  induction fuel with
  | zero =>
    intro st gs h
    omega
  | succ fuel ih =>
    intro st gs h
    rw [bwdLoop]
    by_cases h0 : (!G.has_only_in
        (st.inds.getD ((st.back + 1) % st.inds.length) 0)) = true
    · rw [if_pos h0]
      rfl
    · rw [if_neg h0]
      by_cases h1 : cutoff ≤ st.path
      · rw [if_pos h1]
        rfl
      · rw [if_neg h1]
        by_cases h2 : G.is_dummy_label (bwdFirst G st) = true
        · rw [if_pos h2]
          rfl
        · rw [if_neg h2]
          by_cases h3 : popcountV (bwdNa G st) = 0
          · rw [if_pos h3]
            rfl
          · rw [if_neg h3]
            by_cases h4 : popcountV (bwdNa G st) < st.pcount
            · rw [if_pos h4]
              refine ih _ _ ?_
              show popcountV (bwdNa G st) * (cutoff + 1) + cutoff < fuel
              have hmul := Nat.mul_le_mul_right (cutoff + 1)
                (show popcountV (bwdNa G st) + 1 ≤ st.pcount from h4)
              have hexp : (popcountV (bwdNa G st) + 1) * (cutoff + 1)
                  = popcountV (bwdNa G st) * (cutoff + 1) + (cutoff + 1) := by
                ring
              omega
            · rw [if_neg h4]
              refine ih _ _ ?_
              show st.pcount * (cutoff + 1) + (cutoff - (st.path + 1)) < fuel
              omega

/-- The forward loop only ever intersects: its final `curannot` is the
base vector intersected with exactly the ghost-recorded neighbor
vectors. -/
theorem fwdLoop_land (G : CorrOracle) (cutoff : ℕ) :
    ∀ fuel (st : FwdSt) gs raw st' gs',
      st.curannot = landFold raw gs →
      fwdLoop G cutoff fuel st gs = some (st', gs') →
      st'.curannot = landFold raw gs' := by
  intro fuel
  induction fuel with
  | zero =>
    intro st gs raw st' gs' hc h
    rw [fwdLoop] at h
    exact absurd h (by simp)
  | succ fuel ih =>
    intro st gs raw st' gs' hc h
    rw [fwdLoop] at h
    by_cases h1 : cutoff ≤ st.path
    · rw [if_pos h1] at h
      simp only [Option.some.injEq, Prod.mk.injEq] at h
      obtain ⟨rfl, rfl⟩ := h
      exact hc
    · rw [if_neg h1] at h
      by_cases h2 : (G.is_dummy_label (G.get_edge_label
          (G.next_edge st.j st.cur_edge))
          || !G.has_only_out (G.next_edge st.j st.cur_edge)) = true
      · rw [if_pos h2] at h
        simp only [Option.some.injEq, Prod.mk.injEq] at h
        obtain ⟨rfl, rfl⟩ := h
        exact hc
      · rw [if_neg h2] at h
        by_cases h3 : popcountV (fwdNa G st) = 0
        · rw [if_pos h3] at h
          simp only [Option.some.injEq, Prod.mk.injEq] at h
          obtain ⟨rfl, rfl⟩ := h
          exact hc
        · rw [if_neg h3] at h
          by_cases h4 : popcountV (fwdNa G st) < st.pcount
          · rw [if_pos h4] at h
            refine ih _ _ raw st' gs' ?_ h
            show fwdNa G st
              = landFold raw (gs ++ [G.hannot (fwdHasher G st)])
            rw [landFold, List.foldl_append]
            show fwdNa G st
              = merge_and (landFold raw gs) (G.hannot (fwdHasher G st))
            rw [fwdNa, hc]
          · rw [if_neg h4] at h
            refine ih _ _ raw st' gs' ?_ h
            exact hc

/-- The same for the backward loop. -/
theorem bwdLoop_land (G : CorrOracle) (cutoff : ℕ) :
    ∀ fuel (st : BwdSt) gs raw st' gs',
      st.curannot = landFold raw gs →
      bwdLoop G cutoff fuel st gs = some (st', gs') →
      st'.curannot = landFold raw gs' := by
  intro fuel
  induction fuel with
  | zero =>
    intro st gs raw st' gs' hc h
    rw [bwdLoop] at h
    exact absurd h (by simp)
  | succ fuel ih =>
    intro st gs raw st' gs' hc h
    rw [bwdLoop] at h
    by_cases h0 : (!G.has_only_in
        (st.inds.getD ((st.back + 1) % st.inds.length) 0)) = true
    · rw [if_pos h0] at h
      simp only [Option.some.injEq, Prod.mk.injEq] at h
      obtain ⟨rfl, rfl⟩ := h
      exact hc
    · rw [if_neg h0] at h
      by_cases h1 : cutoff ≤ st.path
      · rw [if_pos h1] at h
        simp only [Option.some.injEq, Prod.mk.injEq] at h
        obtain ⟨rfl, rfl⟩ := h
        exact hc
      · rw [if_neg h1] at h
        by_cases h2 : G.is_dummy_label (bwdFirst G st) = true
        · rw [if_pos h2] at h
          simp only [Option.some.injEq, Prod.mk.injEq] at h
          obtain ⟨rfl, rfl⟩ := h
          exact hc
        · rw [if_neg h2] at h
          by_cases h3 : popcountV (bwdNa G st) = 0
          · rw [if_pos h3] at h
            simp only [Option.some.injEq, Prod.mk.injEq] at h
            obtain ⟨rfl, rfl⟩ := h
            exact hc
          · rw [if_neg h3] at h
            by_cases h4 : popcountV (bwdNa G st) < st.pcount
            · rw [if_pos h4] at h
              refine ih _ _ raw st' gs' ?_ h
              show bwdNa G st
                = landFold raw (gs ++ [G.hannot (bwdHasher G st)])
              rw [landFold, List.foldl_append]
              show bwdNa G st
                = merge_and (landFold raw gs) (G.hannot (bwdHasher G st))
              rw [bwdNa, hc]
            · rw [if_neg h4] at h
              refine ih _ _ raw st' gs' ?_ h
              exact hc

theorem getD_replicate_zero : ∀ n w : ℕ, (List.replicate n (0 : ℕ)).getD w 0 = 0
  | 0, _ => by simp
  | n + 1, 0 => by rw [List.replicate, List.getD_cons_zero]
  | n + 1, w + 1 => by
    rw [List.replicate, List.getD_cons_succ]
    exact getD_replicate_zero n w

theorem popcountV_replicate_zero (n : ℕ) :
    popcountV (List.replicate n 0) = 0 := by
  induction n with
  | zero => rfl
  | succ n ih =>
    rw [List.replicate]
    simp only [popcountV, List.map_cons, List.sum_cons] at ih ⊢
    rw [ih]
    rfl

/-- C9: both walks of `get_annotation_corrected` terminate.  Although the
path counter is reset to zero whenever the intersected popcount strictly
decreases, the measure `pcount * (cutoff + 1) + (cutoff - path)` strictly
decreases on every iteration, so any fuel above the initial measure (in
particular the `corrFuel` used by `get_annotation_corrected`) makes both
loops return. -/
theorem C9_corrector_terminates (G : CorrOracle) (cutoff fuel : ℕ)
    (st : FwdSt) (st2 : BwdSt) (gs gs2 : List (List ℕ))
    (h1 : st.pcount * (cutoff + 1) + (cutoff - st.path) < fuel)
    (h2 : st2.pcount * (cutoff + 1) + (cutoff - st2.path) < fuel) :
    (fwdLoop G cutoff fuel st gs).isSome = true
      ∧ (bwdLoop G cutoff fuel st2 gs2).isSome = true :=
  ⟨fwdLoop_some G cutoff fuel st gs h1, bwdLoop_some G cutoff fuel st2 gs2 h2⟩

/-- A small concrete graph/hasher oracle. -/
def oracleW : CorrOracle where
  K := 1
  kmer_from_index := fun _ => [1, 2]
  hasherInit := fun km => km.sum
  hupdate := fun h c => h + c
  hrevupdate := fun h c => h + c
  hannot := fun _ => [1]
  is_dummy_edge := fun _ => false
  is_dummy_label := fun _ => false
  next_edge := fun j _ => j + 1
  prev_edge := fun j => j
  get_edge_label := fun _ => 1
  has_only_out := fun _ => true
  has_only_in := fun _ => true

/-- The same oracle with every edge a dummy edge. -/
def oracleD : CorrOracle := { oracleW with is_dummy_edge := fun _ => true }

theorem C9_witness :
    (fwdLoop oracleW 1 4 (FwdSt.mk 0 2 3 [1] 1 0) []).isSome = true
      ∧ (bwdLoop oracleW 1 4 (BwdSt.mk [0, 0] 1 3 [1] 1 0) []).isSome = true :=
  C9_corrector_terminates oracleW 1 4 (FwdSt.mk 0 2 3 [1] 1 0)
    (BwdSt.mk [0, 0] 1 3 [1] 1 0) [] [] (by decide) (by decide)

/-- C10: on a dummy edge, `get_annotation_corrected` returns the all-zero
vector of the same word length as the raw Bloom lookup, regardless of
which bits that lookup reports. -/
theorem C10_dummy_zero (G : CorrOracle) (i cutoff : ℕ)
    (h : G.is_dummy_edge (G.kmer_from_index i) = true) :
    get_annotation_corrected G i cutoff
      = List.replicate
          (G.hannot (G.hasherInit (G.kmer_from_index i))).length 0 := by
  rw [get_annotation_corrected, if_pos h]

theorem C10_witness :
    get_annotation_corrected oracleD 0 1
      = List.replicate
          (oracleD.hannot (oracleD.hasherInit (oracleD.kmer_from_index 0))).length
          0 :=
  C10_dummy_zero oracleD 0 1 rfl

/-- C3: corrector monotonicity.  The corrected vector is the raw Bloom
vector intersected with the (ghost-recorded) neighbor vectors of the walk
— hence a wordwise bitwise subset of the raw vector with no smaller a
popcount gap — and, on non-dummy edges, any exact vector contained in the
raw vector and in every intersected neighbor vector (the spec's
losslessness of true labels along the walk) survives intact.  No bit
absent from the raw vector is ever introduced. -/
theorem C3_corrector_monotone (G : CorrOracle) (i cutoff : ℕ) :
    ∃ gs : List (List ℕ),
      (G.is_dummy_edge (G.kmer_from_index i) = false →
        get_annotation_corrected G i cutoff
          = landFold (G.hannot (G.hasherInit (G.kmer_from_index i))) gs)
      ∧ vecSubset (get_annotation_corrected G i cutoff)
          (G.hannot (G.hasherInit (G.kmer_from_index i)))
      ∧ popcountV (get_annotation_corrected G i cutoff)
          ≤ popcountV (G.hannot (G.hasherInit (G.kmer_from_index i)))
      ∧ ∀ ex : List ℕ,
          vecSubset ex (G.hannot (G.hasherInit (G.kmer_from_index i))) →
          (∀ g ∈ gs, vecSubset ex g) →
          G.is_dummy_edge (G.kmer_from_index i) = false →
          vecSubset ex (get_annotation_corrected G i cutoff) := by
  by_cases hdum : G.is_dummy_edge (G.kmer_from_index i) = true
  · refine ⟨[], ?_, ?_, ?_, ?_⟩
    · intro hfalse
      rw [hdum] at hfalse
      exact absurd hfalse (by simp)
    · rw [get_annotation_corrected, if_pos hdum]
      intro w
      rw [getD_replicate_zero, Nat.zero_and]
    · rw [get_annotation_corrected, if_pos hdum, popcountV_replicate_zero]
      exact Nat.zero_le _
    · intro ex hexraw hgs hfalse
      rw [hdum] at hfalse
      exact absurd hfalse (by simp)
  · by_cases hpc : popcountV (G.hannot (G.hasherInit (G.kmer_from_index i)))
        = 0
    · have heq : get_annotation_corrected G i cutoff
          = G.hannot (G.hasherInit (G.kmer_from_index i)) := by
        rw [get_annotation_corrected, if_neg hdum, if_pos hpc]
      refine ⟨[], fun _ => by rw [heq]; rfl, ?_, ?_, ?_⟩
      · rw [heq]
        exact vecSubset_refl _
      · rw [heq]
      · intro ex hexraw _ _
        rw [heq]
        exact hexraw
    · obtain ⟨p1, hfwd⟩ := Option.isSome_iff_exists.mp
        (fwdLoop_some G cutoff
          (corrFuel (popcountV (G.hannot (G.hasherInit (G.kmer_from_index i))))
            cutoff)
          (fwdInit G i) []
          (by
            show popcountV (G.hannot (G.hasherInit (G.kmer_from_index i)))
                * (cutoff + 1) + (cutoff - 0)
              < corrFuel
                (popcountV (G.hannot (G.hasherInit (G.kmer_from_index i))))
                cutoff
            rw [corrFuel]
            omega))
      obtain ⟨st1, gs1⟩ := p1
      obtain ⟨p2, hbwd⟩ := Option.isSome_iff_exists.mp
        (bwdLoop_some G cutoff (corrFuel st1.pcount cutoff)
          (bwdInit G i st1) gs1
          (by
            show st1.pcount * (cutoff + 1) + (cutoff - 0)
              < corrFuel st1.pcount cutoff
            rw [corrFuel]
            omega))
      obtain ⟨st2, gs2⟩ := p2
      have hcorr : get_annotation_corrected G i cutoff = st2.curannot := by
        rw [get_annotation_corrected, if_neg hdum, if_neg hpc, hfwd]
        dsimp only
        rw [hbwd]
      have hl1 : st1.curannot
          = landFold (G.hannot (G.hasherInit (G.kmer_from_index i))) gs1 :=
        fwdLoop_land G cutoff _ (fwdInit G i) []
          (G.hannot (G.hasherInit (G.kmer_from_index i))) st1 gs1 rfl hfwd
      have hl2 : st2.curannot
          = landFold (G.hannot (G.hasherInit (G.kmer_from_index i))) gs2 :=
        bwdLoop_land G cutoff _ (bwdInit G i st1) gs1
          (G.hannot (G.hasherInit (G.kmer_from_index i))) st2 gs2
          (by
            show st1.curannot
              = landFold (G.hannot (G.hasherInit (G.kmer_from_index i))) gs1
            exact hl1)
          hbwd
      refine ⟨gs2, fun _ => by rw [hcorr, hl2], ?_, ?_, ?_⟩
      · rw [hcorr, hl2]
        exact vecSubset_landFold _ _
      · rw [hcorr, hl2]
        exact popcountV_landFold_le _ _
      · intro ex hexraw hgs _
        rw [hcorr, hl2]
        exact vecSubset_landFold_of_all hexraw hgs

end Metagraph
